import Mathlib

/-!
Verification development for the layout/animation core of beautiful-mermaid.

The definitions below are a shallow embedding of `src/animation.ts` (the
animation scheduler, easing translator and option resolution) and of the
`escapeXml` utility of the renderer.  JavaScript `Map`s are modelled as
insertion-ordered association lists (`jget` / `jset` mirror `Map.get` /
`Map.set`), JavaScript numbers as exact rationals, and the imperative loops
as structurally equivalent recursions carrying the loop counter.
-/

set_option maxHeartbeats 1000000

namespace BeautifulMermaid

/-- Lookup in the association-list model of a JavaScript `Map`
(first entry with the key; keys are unique for maps built by `jset`). -/
def jget {α β : Type} [DecidableEq α] : List (α × β) → α → Option β
  | [], _ => none
  | p :: m, k => if k = p.1 then some p.2 else jget m k

/-- Model of JavaScript `Map.set`: replace in place if the key exists,
append otherwise (preserving insertion order of keys). -/
def jset {α β : Type} [DecidableEq α] : List (α × β) → α → β → List (α × β)
  | [], k, v => [(k, v)]
  | p :: m, k, v => if k = p.1 then (p.1, v) :: m else p :: jset m k v

-- ============================================================================
-- Data model (src/types.ts), restricted to the fields read by the animation
-- subsystem.  Renderer-only fields (shape tag, inline styles, edge polyline,
-- arrowhead flags, label positions) are never read by `computeDelays` or
-- `collectGroupDelays` and are omitted from the embedding.
-- ============================================================================

/-- PositionedNode: id, label, box geometry and optional dagre rank. -/
structure PositionedNode where
  id : String
  label : String
  x : ℚ
  y : ℚ
  width : ℚ
  height : ℚ
  rank : Option ℚ
  deriving DecidableEq, Repr

/-- PositionedEdge: source and target node ids (the only fields the
animation scheduler reads). -/
structure PositionedEdge where
  source : String
  target : String
  deriving DecidableEq, Repr

/-- PositionedGroup: id, label, bounding box and nested children. -/
inductive PositionedGroup where
  | mk (id : String) (label : String) (x y width height : ℚ)
       (children : List PositionedGroup)

def PositionedGroup.id : PositionedGroup → String
  | .mk i _ _ _ _ _ _ => i

def PositionedGroup.x : PositionedGroup → ℚ
  | .mk _ _ a _ _ _ _ => a

def PositionedGroup.y : PositionedGroup → ℚ
  | .mk _ _ _ a _ _ _ => a

def PositionedGroup.width : PositionedGroup → ℚ
  | .mk _ _ _ _ a _ _ => a

def PositionedGroup.height : PositionedGroup → ℚ
  | .mk _ _ _ _ _ a _ => a

def PositionedGroup.children : PositionedGroup → List PositionedGroup
  | .mk _ _ _ _ _ _ c => c

/-- PositionedGraph: canvas size plus nodes, edges and group forest. -/
structure PositionedGraph where
  width : ℚ
  height : ℚ
  nodes : List PositionedNode
  edges : List PositionedEdge
  groups : List PositionedGroup

-- ============================================================================
-- Animation options (src/types.ts `AnimationOptions`,
-- src/animation.ts `ResolvedAnimation`, `DEFAULTS`, `resolveAnimation`)
-- ============================================================================

/-- AnimationOptions: every field optional (absent = undefined). -/
structure AnimationOptions where
  duration : Option ℚ := none
  stagger : Option ℚ := none
  groupDelay : Option ℚ := none
  nodeOverlap : Option ℚ := none
  nodeEasing : Option String := none
  edgeEasing : Option String := none
  nodeAnimation : Option String := none
  edgeAnimation : Option String := none
  reducedMotion : Option Bool := none
  deriving DecidableEq, Repr

/-- ResolvedAnimation: fully resolved options, all defaults applied. -/
structure ResolvedAnimation where
  duration : ℚ
  stagger : ℚ
  groupDelay : ℚ
  nodeOverlap : ℚ
  nodeEasing : String
  edgeEasing : String
  nodeAnimation : String
  edgeAnimation : String
  reducedMotion : Bool
  deriving DecidableEq, Repr

/-- DEFAULTS constant of src/animation.ts. -/
def DEFAULTS : ResolvedAnimation :=
  { duration := 650
    stagger := 0
    groupDelay := 110
    nodeOverlap := 0.35
    nodeEasing := "ease"
    edgeEasing := "ease-in-out"
    nodeAnimation := "fade"
    edgeAnimation := "draw"
    reducedMotion := true }

/-- The `animate` argument of `resolveAnimation`:
`undefined`, a boolean, or an options object. -/
inductive AnimateArg where
  | undef
  | flag (b : Bool)
  | opts (o : AnimationOptions)

/-- resolveAnimation of src/animation.ts: `undefined`/`false` disable,
`true` gives the defaults, an object is spread over the defaults
(field-wise: a provided field wins, an absent field takes the default). -/
def resolveAnimation : AnimateArg → Option ResolvedAnimation
  | .undef => none
  | .flag false => none
  | .flag true => some DEFAULTS
  | .opts o => some
      { duration := o.duration.getD DEFAULTS.duration
        stagger := o.stagger.getD DEFAULTS.stagger
        groupDelay := o.groupDelay.getD DEFAULTS.groupDelay
        nodeOverlap := o.nodeOverlap.getD DEFAULTS.nodeOverlap
        nodeEasing := o.nodeEasing.getD DEFAULTS.nodeEasing
        edgeEasing := o.edgeEasing.getD DEFAULTS.edgeEasing
        nodeAnimation := o.nodeAnimation.getD DEFAULTS.nodeAnimation
        edgeAnimation := o.edgeAnimation.getD DEFAULTS.edgeAnimation
        reducedMotion := o.reducedMotion.getD DEFAULTS.reducedMotion }

-- ============================================================================
-- Delay computation (src/animation.ts `computeDelays`)
-- ============================================================================

/-- Schedule produced by `computeDelays` (ElementDelays of src/animation.ts). -/
structure ElementDelays where
  nodes : List (String × ℚ)
  edges : List (Nat × ℚ)
  groups : List (String × ℚ)
  deriving DecidableEq, Repr

/-- Rank of a node as used throughout `computeDelays`: `node.rank ?? 0`. -/
def rankOf (n : PositionedNode) : ℚ := n.rank.getD 0

/-- Stable insertion of a node into an x-sorted list (the node goes before
the first strictly larger x, after all smaller-or-equal x). -/
def insertByX (n : PositionedNode) : List PositionedNode → List PositionedNode
  | [] => [n]
  | m :: l => if n.x ≤ m.x then n :: m :: l else m :: insertByX n l

/-- Stable sort by x: model of `bucket.sort((a, b) => a.x - b.x)`
(ECMAScript sort is stable, so any stable sort by x yields the same list). -/
def sortByX : List PositionedNode → List PositionedNode
  | [] => []
  | n :: l => insertByX n (sortByX l)

def insertRank (r : ℚ) : List ℚ → List ℚ
  | [] => [r]
  | s :: l => if r ≤ s then r :: s :: l else s :: insertRank r l

/-- Ascending sort of the rank keys: model of `[...keys].sort((a, b) => a - b)`. -/
def sortRanks : List ℚ → List ℚ
  | [] => []
  | r :: l => insertRank r (sortRanks l)

/-- Loop of `computeDelays` building the incoming-edge index
(k is the running edge index `i`). -/
def incomingAdd : List (String × List Nat) → List PositionedEdge → Nat → List (String × List Nat)
  | m, [], _ => m
  | m, e :: es, k => incomingAdd (jset m e.target ((jget m e.target).getD [] ++ [k])) es (k + 1)

/-- Incoming edges map: node id → indices of edges that target this node. -/
def incomingMap (edges : List PositionedEdge) : List (String × List Nat) :=
  incomingAdd [] edges 0

/-- Loop of `computeDelays` grouping nodes by rank. -/
def bucketsAdd : List (ℚ × List PositionedNode) → List PositionedNode →
    List (ℚ × List PositionedNode)
  | bs, [] => bs
  | bs, n :: ns => bucketsAdd (jset bs (rankOf n) ((jget bs (rankOf n)).getD [] ++ [n])) ns

/-- Rank buckets: rank → nodes of that rank in graph order. -/
def rankBuckets (ns : List PositionedNode) : List (ℚ × List PositionedNode) :=
  bucketsAdd [] ns

/-- Ranks in ascending order, each paired with its x-sorted bucket:
the processing order of the main loop of `computeDelays`. -/
def sortedBuckets (ns : List PositionedNode) : List (ℚ × List PositionedNode) :=
  (sortRanks ((rankBuckets ns).map Prod.fst)).map
    (fun r => (r, sortByX ((jget (rankBuckets ns) r).getD [])))

/-- State threaded through the main loop: node-delay map and edge-delay map. -/
abbrev DelayState := List (String × ℚ) × List (Nat × ℚ)

/-- Inner loop `for (ei = 0; ...)` setting every outgoing edge of the node
just processed (k is the running edge index `ei`). -/
def setOutgoing : List PositionedEdge → Nat → String → ℚ → List (Nat × ℚ) → List (Nat × ℚ)
  | [], _, _, _, em => em
  | e :: es, k, sid, v, em =>
      setOutgoing es (k + 1) sid v (if e.source = sid then jset em k v else em)

/-- Delay assigned to one node: root case `rank * stagger + i * withinRankStagger`,
otherwise latest incoming edge end (edge delay `?? 0` plus duration, floored by
the initial 0) minus the overlap, plus the within-rank stagger. -/
def nodeDelay (opts : ResolvedAnimation) (incoming : List (String × List Nat))
    (em : List (Nat × ℚ)) (r : ℚ) (i : Nat) (n : PositionedNode) : ℚ :=
  let inc := (jget incoming n.id).getD []
  if inc = [] then
    r * opts.stagger + (i : ℚ) * (opts.stagger * 0.5)
  else
    (inc.foldl (fun acc j => max acc ((jget em j).getD 0 + opts.duration)) 0)
      - opts.duration * opts.nodeOverlap + (i : ℚ) * (opts.stagger * 0.5)

/-- Body of the main loop for one node: record its delay, then set the delay
of every edge whose source is this node to delay + duration. -/
def stepNode (edges : List PositionedEdge) (opts : ResolvedAnimation)
    (incoming : List (String × List Nat)) (r : ℚ) (i : Nat) (n : PositionedNode)
    (s : DelayState) : DelayState :=
  let d := nodeDelay opts incoming s.2 r i n
  (jset s.1 n.id d, setOutgoing edges 0 n.id (d + opts.duration) s.2)

/-- Inner loop over one rank bucket (i is the running index in the bucket). -/
def processBucket (edges : List PositionedEdge) (opts : ResolvedAnimation)
    (incoming : List (String × List Nat)) (r : ℚ) :
    Nat → List PositionedNode → DelayState → DelayState
  | _, [], s => s
  | i, n :: b, s =>
      processBucket edges opts incoming r (i + 1) b (stepNode edges opts incoming r i n s)

/-- Outer loop over the sorted ranks. -/
def processRanks (edges : List PositionedEdge) (opts : ResolvedAnimation)
    (incoming : List (String × List Nat)) :
    List (ℚ × List PositionedNode) → DelayState → DelayState
  | [], s => s
  | rb :: bs, s =>
      processRanks edges opts incoming bs (processBucket edges opts incoming rb.1 0 rb.2 s)

/-- Geometric containment test of `collectGroupDelays`: the node box lies
within the group box. -/
def nodeInGroup (n : PositionedNode) (g : PositionedGroup) : Prop :=
  g.x ≤ n.x ∧ n.x + n.width ≤ g.x + g.width ∧ g.y ≤ n.y ∧ n.y + n.height ≤ g.y + g.height

instance (n : PositionedNode) (g : PositionedGroup) : Decidable (nodeInGroup n g) := by
  unfold nodeInGroup; infer_instance

/-- When the group container appears relative to the last child. -/
def GROUP_REVEAL_PROGRESS : ℚ := 0.6

/-- Latest node delay inside a group bounding box (0 if none): the
`maxDelay` accumulation loop of `collectGroupDelays`. -/
def groupMaxDelay (allNodes : List PositionedNode) (nodeDelays : List (String × ℚ))
    (g : PositionedGroup) : ℚ :=
  allNodes.foldl (fun acc n =>
    match jget nodeDelays n.id with
    | none => acc
    | some nd => if nodeInGroup n g then (if acc < nd then nd else acc) else acc) 0

/-- collectGroupDelays of src/animation.ts: for each group, first recurse
into its children, then record the group delay. -/
def collectGroupDelays (allNodes : List PositionedNode) (opts : ResolvedAnimation)
    (nodeDelays : List (String × ℚ)) :
    List PositionedGroup → List (String × ℚ) → List (String × ℚ)
  | [], out => out
  | PositionedGroup.mk i lab gx gy gw gh ch :: gs, out =>
      collectGroupDelays allNodes opts nodeDelays gs
        (jset (collectGroupDelays allNodes opts nodeDelays ch out) i
          (groupMaxDelay allNodes nodeDelays (PositionedGroup.mk i lab gx gy gw gh ch)
            + opts.duration * GROUP_REVEAL_PROGRESS + opts.groupDelay))

/-- computeDelays of src/animation.ts. -/
def computeDelays (graph : PositionedGraph) (opts : ResolvedAnimation) : ElementDelays :=
  let incoming := incomingMap graph.edges
  let st := processRanks graph.edges opts incoming (sortedBuckets graph.nodes) ([], [])
  { nodes := st.1
    edges := st.2
    groups := collectGroupDelays graph.nodes opts st.1 graph.groups [] }

-- ============================================================================
-- Easing translation (src/animation.ts `NAMED_EASINGS`, `cssEasingToSmil`)
-- ============================================================================

/-- Named CSS easings and their cubic-bezier control points. -/
def NAMED_EASINGS : List (String × String) :=
  [("ease", "0.25 0.1 0.25 1"),
   ("ease-in", "0.42 0 1 1"),
   ("ease-out", "0 0 0.58 1"),
   ("ease-in-out", "0.42 0 0.58 1"),
   ("linear", "0 0 1 1")]

/-- Character class `[\d.]` of the cubic-bezier pattern. -/
def isDigitDot (c : Char) : Bool := c.isDigit || c = '.'

/-- Greedy `[\d.]+` (must consume at least one character). -/
def takeNum (l : List Char) : Option (String × List Char) :=
  let ds := l.takeWhile isDigitDot
  if ds.isEmpty then none else some (String.mk ds, l.drop ds.length)

def skipWs (l : List Char) : List Char := l.dropWhile Char.isWhitespace

/-- Attempt to match `cubic-bezier\(\s*([\d.]+)\s*,\s*([\d.]+)\s*,\s*([\d.]+)\s*,\s*([\d.]+)\s*\)`
at the start of the character list.  `[\d.]` is disjoint from `\s` and from
the literal separators, so greedy matching needs no backtracking. -/
def matchBezier (l : List Char) : Option (String × String × String × String) :=
  match l.dropPrefix? "cubic-bezier(".data with
  | none => none
  | some l1 =>
    match takeNum (skipWs l1) with
    | none => none
    | some (n1, l2) =>
      match skipWs l2 with
      | ',' :: l3 =>
        match takeNum (skipWs l3) with
        | none => none
        | some (n2, l4) =>
          match skipWs l4 with
          | ',' :: l5 =>
            match takeNum (skipWs l5) with
            | none => none
            | some (n3, l6) =>
              match skipWs l6 with
              | ',' :: l7 =>
                match takeNum (skipWs l7) with
                | none => none
                | some (n4, l8) =>
                  match skipWs l8 with
                  | ')' :: _ => some (n1, n2, n3, n4)
                  | _ => none
              | _ => none
          | _ => none
      | _ => none

/-- Regex search: try the pattern at every start position, leftmost match wins. -/
def findBezier : List Char → Option (String × String × String × String)
  | [] => none
  | c :: l =>
    match matchBezier (c :: l) with
    | some r => some r
    | none => findBezier l

/-- cssEasingToSmil of src/animation.ts: named lookup, then cubic-bezier
parse, then the fixed ease-out fallback. -/
def cssEasingToSmil (easing : String) : String :=
  match jget NAMED_EASINGS easing with
  | some named => named
  | none =>
    match findBezier easing.data with
    | some (a, b, c, d) => a ++ " " ++ b ++ " " ++ c ++ " " ++ d
    | none => "0 0 0.58 1"

-- ============================================================================
-- escapeXml (renderer utility)
-- ============================================================================

/-- Single global replace of one character by a replacement string:
model of `String.replace(/c/g, rep)`. -/
def replaceChar (pat : Char) (rep : List Char) (l : List Char) : List Char :=
  l.flatMap (fun c => if c = pat then rep else [c])

/-- escapeXml of the renderer: the five sequential global replaces. -/
def escapeXml (s : String) : String :=
  String.mk
    (replaceChar (Char.ofNat 39) "&#39;".data
      (replaceChar '"' "&quot;".data
        (replaceChar '>' "&gt;".data
          (replaceChar '<' "&lt;".data
            (replaceChar '&' "&amp;".data s.data)))))

/-- Single-pass entity substitution that the five replaces amount to. -/
def xmlEntity (c : Char) : List Char :=
  if c = '&' then "&amp;".data
  else if c = '<' then "&lt;".data
  else if c = '>' then "&gt;".data
  else if c = '"' then "&quot;".data
  else if c = Char.ofNat 39 then "&#39;".data
  else [c]

-- ============================================================================
-- Concrete instances used by witnesses and counterexamples
-- ============================================================================

/-- Node A: rank 0, leftmost. -/
def nodeA : PositionedNode :=
  { id := "A", label := "A", x := 0, y := 0, width := 10, height := 10, rank := some 0 }

/-- Node B: rank 1. -/
def nodeB : PositionedNode :=
  { id := "B", label := "B", x := 0, y := 20, width := 10, height := 10, rank := some 1 }

/-- Second rank-0 root placed to the right of nodeA. -/
def nodeR : PositionedNode :=
  { id := "R", label := "R", x := 30, y := 0, width := 10, height := 10, rank := some 0 }

/-- Node with an absent rank field. -/
def nodeC : PositionedNode :=
  { id := "C", label := "C", x := 0, y := 40, width := 10, height := 10, rank := none }

/-- Chain A → B. -/
def graphAB : PositionedGraph :=
  { width := 100, height := 100, nodes := [nodeA, nodeB],
    edges := [{ source := "A", target := "B" }], groups := [] }

/-- Back edge B → A (rank of the source exceeds the rank of the target). -/
def graphBack : PositionedGraph :=
  { width := 100, height := 100, nodes := [nodeA, nodeB],
    edges := [{ source := "B", target := "A" }], groups := [] }

/-- Two disconnected roots in rank 0. -/
def graphRoots : PositionedGraph :=
  { width := 100, height := 100, nodes := [nodeR, nodeA], edges := [], groups := [] }

/-- A graph containing a node with an absent rank. -/
def graphNoRank : PositionedGraph :=
  { width := 100, height := 100, nodes := [nodeC, nodeB], edges := [], groups := [] }

/-- A group box that contains the box of nodeA. -/
def grpG : PositionedGroup := PositionedGroup.mk "G" "G" (-5) (-5) 30 30 []

/-- One node inside one group box. -/
def graphGrp : PositionedGraph :=
  { width := 100, height := 100, nodes := [nodeA], edges := [], groups := [grpG] }

/-- Defaults with a negative duration (out of range). -/
def cfgNegDuration : ResolvedAnimation := { DEFAULTS with duration := -100 }

/-- Defaults with a large negative group offset (out of range). -/
def cfgNegGroup : ResolvedAnimation := { DEFAULTS with groupDelay := -1000 }

/-- Defaults with a nonzero stagger. -/
def cfgStagger : ResolvedAnimation := { DEFAULTS with stagger := 80 }

/-- Partial options supplying an out-of-range duration and node overlap. -/
def optsNegDuration : AnimationOptions := { duration := some (-5), nodeOverlap := some 2 }

/-- Indices (starting at k) of the edges that target t, in edge order. -/
def targIdxs : List PositionedEdge → Nat → String → List Nat
  | [], _, _ => []
  | e :: es, k, t =>
      if e.target = t then k :: targIdxs es (k + 1) t else targIdxs es (k + 1) t

/-- Invariant for the edge-cascade law: every edge whose source id satisfies P
has its delay recorded as the source delay plus the duration. -/
def Inv1 (edges : List PositionedEdge) (dur : ℚ) (P : String → Prop) (s : DelayState) : Prop :=
  ∀ j e, edges.get? j = some e → P e.source →
    ∃ dn, jget s.1 e.source = some dn ∧ jget s.2 j = some (dn + dur)

/-- All delay-map values are nonnegative. -/
def NonnegState (s : DelayState) : Prop :=
  (∀ x d, jget s.1 x = some d → 0 ≤ d) ∧ (∀ j d, jget s.2 j = some d → 0 ≤ d)

/-- Index of the first node with the given id (length of the list if absent). -/
def idxOfId : List PositionedNode → String → Nat
  | [], _ => 0
  | m :: l, x => if m.id = x then 0 else idxOfId l x + 1

/-- Index of a node within the x-sorted bucket of its rank: the `i` of the
main loop of `computeDelays` for this node. -/
def idxInRank (g : PositionedGraph) (n : PositionedNode) : Nat :=
  idxOfId (sortByX ((jget (rankBuckets g.nodes) (rankOf n)).getD [])) n.id

/-- All groups of a forest, parents before their descendants. -/
def groupsIn : List PositionedGroup → List PositionedGroup
  | [] => []
  | PositionedGroup.mk i lab gx gy gw gh ch :: gs =>
      PositionedGroup.mk i lab gx gy gw gh ch :: (groupsIn ch ++ groupsIn gs)

/-- A node whose rank is absent, normalized to an explicit rank 0. -/
def setRankDefault (n : PositionedNode) : PositionedNode :=
  { n with rank := some (rankOf n) }

-- ============================================================================
-- Basic association-list lemmas
-- ============================================================================

theorem jget_jset_self {α β : Type} [DecidableEq α] (m : List (α × β)) (k : α) (v : β) :
    jget (jset m k v) k = some v := by
  induction m with
  | nil => simp [jget, jset]
  | cons p m ih =>
    by_cases h : k = p.1
    · simp [jget, jset, h]
    · simp [jget, jset, h, ih]

theorem jget_jset_ne {α β : Type} [DecidableEq α] (m : List (α × β)) (k k' : α) (v : β)
    (h : k' ≠ k) : jget (jset m k v) k' = jget m k' := by
  induction m with
  | nil => simp [jget, jset, h]
  | cons p m ih =>
    by_cases hk : k = p.1
    · subst hk
      simp [jget, jset, h]
    · by_cases hk' : k' = p.1
      · simp [jget, jset, hk, hk']
      · simp [jget, jset, hk, hk', ih]

theorem jget_isSome_jset {α β : Type} [DecidableEq α] (m : List (α × β)) (k k' : α) (v : β) :
    (jget (jset m k v) k').isSome ↔ k' = k ∨ (jget m k').isSome := by
  by_cases h : k' = k
  · subst h; simp [jget_jset_self]
  · simp [jget_jset_ne m k k' v h, h]

theorem jget_mem {α β : Type} [DecidableEq α] (m : List (α × β)) (k : α) (v : β)
    (h : jget m k = some v) : (k, v) ∈ m := by
  induction m with
  | nil => simp [jget] at h
  | cons p m ih =>
    obtain ⟨k0, v0⟩ := p
    by_cases hk : k = k0
    · subst hk
      simp [jget] at h
      subst h
      exact List.mem_cons_self _ _
    · simp only [jget, hk, if_neg, ite_false] at h
      exact List.mem_cons_of_mem _ (ih (by simpa [hk] using h))

-- ============================================================================
-- setOutgoing characterization
-- ============================================================================

theorem jget_setOutgoing_lt (es : List PositionedEdge) (k : Nat) (sid : String) (v : ℚ)
    (em : List (Nat × ℚ)) (j : Nat) (h : j < k) :
    jget (setOutgoing es k sid v em) j = jget em j := by
  induction es generalizing k em with
  | nil => simp [setOutgoing]
  | cons e es ih =>
    simp only [setOutgoing]
    rw [ih (k + 1) _ (Nat.lt_succ_of_lt h)]
    by_cases hs : e.source = sid
    · simp [hs]
      exact jget_jset_ne em k j v (Nat.ne_of_lt h)
    · simp [hs]

theorem jget_setOutgoing_hit (es : List PositionedEdge) (k : Nat) (sid : String) (v : ℚ)
    (em : List (Nat × ℚ)) (i : Nat) (e : PositionedEdge)
    (hi : es.get? i = some e) (hs : e.source = sid) :
    jget (setOutgoing es k sid v em) (k + i) = some v := by
  induction es generalizing k em i with
  | nil => simp at hi
  | cons e0 es ih =>
    cases i with
    | zero =>
      simp at hi
      subst hi
      simp only [Nat.add_zero, setOutgoing]
      rw [if_pos hs, jget_setOutgoing_lt es (k + 1) sid v _ k (Nat.lt_succ_self k)]
      exact jget_jset_self em k v
    | succ i =>
      simp only [List.get?] at hi
      simp only [setOutgoing]
      have harith : k + (i + 1) = (k + 1) + i := by omega
      rw [harith]
      exact ih (k + 1) (if e0.source = sid then jset em k v else em) i hi

theorem jget_setOutgoing_miss (es : List PositionedEdge) (k : Nat) (sid : String) (v : ℚ)
    (em : List (Nat × ℚ)) (j : Nat)
    (h : ∀ i e, es.get? i = some e → j = k + i → e.source ≠ sid) :
    jget (setOutgoing es k sid v em) j = jget em j := by
  induction es generalizing k em with
  | nil => simp [setOutgoing]
  | cons e0 es ih =>
    simp only [setOutgoing]
    rw [ih (k + 1) _ (fun i e hi hj => by
      refine h (i + 1) e ?_ ?_
      · simpa [List.get?] using hi
      · omega)]
    by_cases hs : e0.source = sid
    · simp only [hs, if_pos rfl]
      have hj : j ≠ k := by
        intro hjk
        exact h 0 e0 (by simp) (by omega) hs
      exact jget_jset_ne em k j v hj
    · simp [hs]

theorem jget_setOutgoing_cases (es : List PositionedEdge) (k : Nat) (sid : String) (v : ℚ)
    (em : List (Nat × ℚ)) (j : Nat) (d : ℚ)
    (h : jget (setOutgoing es k sid v em) j = some d) :
    d = v ∨ jget em j = some d := by
  induction es generalizing k em with
  | nil => right; simpa [setOutgoing] using h
  | cons e0 es ih =>
    simp only [setOutgoing] at h
    rcases ih (k + 1) _ h with hv | hrest
    · left; exact hv
    · by_cases hs : e0.source = sid
      · rw [if_pos hs] at hrest
        by_cases hj : j = k
        · subst hj
          rw [jget_jset_self] at hrest
          left
          exact (Option.some_inj.mp hrest).symm
        · right
          rwa [jget_jset_ne em k j v hj] at hrest
      · right; rwa [if_neg hs] at hrest

-- ============================================================================
-- Incoming-edge index characterization
-- ============================================================================

theorem mem_targIdxs (es : List PositionedEdge) (k : Nat) (t : String) (j : Nat) :
    j ∈ targIdxs es k t ↔ ∃ i e, es.get? i = some e ∧ e.target = t ∧ j = k + i := by
  induction es generalizing k with
  | nil => simp [targIdxs]
  | cons e0 es ih =>
    simp only [targIdxs]
    by_cases ht : e0.target = t
    · rw [if_pos ht]
      constructor
      · intro hj
        rcases List.mem_cons.mp hj with h | hj2
        · exact ⟨0, e0, by simp, ht, by omega⟩
        · obtain ⟨i, e, hi, hte, hji⟩ := (ih (k + 1)).mp hj2
          exact ⟨i + 1, e, by simpa using hi, hte, by omega⟩
      · rintro ⟨i, e, hi, hte, hji⟩
        cases i with
        | zero =>
          simp at hi
          subst hi
          exact List.mem_cons.mpr (Or.inl (by omega))
        | succ i =>
          exact List.mem_cons.mpr
            (Or.inr ((ih (k + 1)).mpr ⟨i, e, by simpa using hi, hte, by omega⟩))
    · rw [if_neg ht]
      constructor
      · intro hj
        obtain ⟨i, e, hi, hte, hji⟩ := (ih (k + 1)).mp hj
        exact ⟨i + 1, e, by simpa using hi, hte, by omega⟩
      · rintro ⟨i, e, hi, hte, hji⟩
        cases i with
        | zero =>
          simp at hi
          subst hi
          exact absurd hte ht
        | succ i =>
          exact (ih (k + 1)).mpr ⟨i, e, by simpa using hi, hte, by omega⟩

theorem targIdxs_eq_nil (es : List PositionedEdge) (k : Nat) (t : String)
    (h : ∀ e ∈ es, e.target ≠ t) : targIdxs es k t = [] := by
  induction es generalizing k with
  | nil => rfl
  | cons e0 es ih =>
    rw [targIdxs, if_neg (h e0 (by simp))]
    exact ih (k + 1) (fun e he => h e (List.mem_cons_of_mem _ he))

theorem jget_incomingAdd (es : List PositionedEdge) (k : Nat)
    (m : List (String × List Nat)) (t : String) :
    jget (incomingAdd m es k) t =
      if targIdxs es k t = [] then jget m t
      else some ((jget m t).getD [] ++ targIdxs es k t) := by
  induction es generalizing k m with
  | nil => simp [incomingAdd, targIdxs]
  | cons e0 es ih =>
    by_cases ht : e0.target = t
    · subst ht
      simp only [incomingAdd, targIdxs, if_pos rfl]
      rw [ih]
      by_cases hnil : targIdxs es (k + 1) e0.target = []
      · simp [hnil, jget_jset_self]
      · simp [hnil, jget_jset_self]
    · simp only [incomingAdd, targIdxs, ht, if_neg, ite_false]
      rw [ih]
      rw [jget_jset_ne m e0.target t _ (fun h => ht h.symm)]

theorem jget_incomingMap (es : List PositionedEdge) (t : String) :
    jget (incomingMap es) t =
      if targIdxs es 0 t = [] then none else some (targIdxs es 0 t) := by
  rw [incomingMap, jget_incomingAdd]
  simp [jget]

theorem incoming_getD (es : List PositionedEdge) (t : String) :
    (jget (incomingMap es) t).getD [] = targIdxs es 0 t := by
  rw [jget_incomingMap]
  by_cases h : targIdxs es 0 t = [] <;> simp [h]

-- ============================================================================
-- Fold-max lemmas
-- ============================================================================

theorem le_foldl_max (f : Nat → ℚ) (l : List Nat) (a : ℚ) :
    a ≤ l.foldl (fun acc j => max acc (f j)) a := by
  induction l generalizing a with
  | nil => simp
  | cons j l ih => exact le_trans (le_max_left a (f j)) (ih (max a (f j)))

theorem foldl_max_ge (f : Nat → ℚ) (l : List Nat) : ∀ (a : ℚ) (j : Nat), j ∈ l →
    f j ≤ l.foldl (fun acc j => max acc (f j)) a := by
  induction l with
  | nil =>
    intro a j hj
    simp at hj
  | cons j0 l ih =>
    intro a j hj
    rcases List.mem_cons.mp hj with h | hj2
    · subst h
      exact le_trans (le_max_right a (f j)) (le_foldl_max f l _)
    · exact ih _ _ hj2

theorem foldl_max_attained (f : Nat → ℚ) (l : List Nat) : ∀ (a : ℚ),
    l.foldl (fun acc j => max acc (f j)) a = a ∨
      ∃ j ∈ l, l.foldl (fun acc j => max acc (f j)) a = f j := by
  induction l with
  | nil =>
    intro a
    left
    rfl
  | cons j0 l ih =>
    intro a
    have hfold : (j0 :: l).foldl (fun acc j => max acc (f j)) a
        = l.foldl (fun acc j => max acc (f j)) (max a (f j0)) := rfl
    rcases ih (max a (f j0)) with h | ⟨j, hj, h⟩
    · rcases max_cases a (f j0) with ⟨hm, _⟩ | ⟨hm, _⟩
      · left
        rw [hfold, h, hm]
      · right
        exact ⟨j0, by simp, by rw [hfold, h, hm]⟩
    · right
      exact ⟨j, List.mem_cons_of_mem _ hj, by rw [hfold]; exact h⟩

-- ============================================================================
-- Sorting permutation and order lemmas
-- ============================================================================

theorem insertByX_perm (n : PositionedNode) (l : List PositionedNode) :
    (insertByX n l).Perm (n :: l) := by
  induction l with
  | nil => simp [insertByX]
  | cons m l ih =>
    by_cases h : n.x ≤ m.x
    · rw [insertByX, if_pos h]
    · rw [insertByX, if_neg h]
      exact ((ih.cons m).trans (List.Perm.swap n m l)).symm.symm

theorem sortByX_perm (l : List PositionedNode) : (sortByX l).Perm l := by
  induction l with
  | nil => simp [sortByX]
  | cons n l ih => exact (insertByX_perm n (sortByX l)).trans (ih.cons n)

theorem insertRank_perm (r : ℚ) (l : List ℚ) : (insertRank r l).Perm (r :: l) := by
  induction l with
  | nil => simp [insertRank]
  | cons s l ih =>
    by_cases h : r ≤ s
    · rw [insertRank, if_pos h]
    · rw [insertRank, if_neg h]
      exact (ih.cons s).trans (List.Perm.swap r s l)

theorem sortRanks_perm (l : List ℚ) : (sortRanks l).Perm l := by
  induction l with
  | nil => simp [sortRanks]
  | cons r l ih => exact (insertRank_perm r (sortRanks l)).trans (ih.cons r)

theorem insertRank_sorted (r : ℚ) (l : List ℚ) (h : l.Sorted (· ≤ ·)) :
    (insertRank r l).Sorted (· ≤ ·) := by
  induction l with
  | nil => simp [insertRank]
  | cons s l ih =>
    rcases List.sorted_cons.mp h with ⟨hs, hl⟩
    by_cases hrs : r ≤ s
    · rw [insertRank, if_pos hrs]
      exact List.sorted_cons.mpr ⟨fun b hb => by
        rcases List.mem_cons.mp hb with rfl | hb
        · exact hrs
        · exact le_trans hrs (hs b hb), h⟩
    · rw [insertRank, if_neg hrs]
      refine List.sorted_cons.mpr ⟨fun b hb => ?_, ih hl⟩
      have hb2 := (insertRank_perm r l).mem_iff.mp hb
      rcases List.mem_cons.mp hb2 with rfl | hb2
      · exact le_of_not_le hrs
      · exact hs b hb2

theorem sortRanks_sorted (l : List ℚ) : (sortRanks l).Sorted (· ≤ ·) := by
  induction l with
  | nil => simp [sortRanks]
  | cons r l ih => exact insertRank_sorted r (sortRanks l) ih

-- ============================================================================
-- Rank-bucket structure lemmas
-- ============================================================================

theorem mem_jset {α β : Type} [DecidableEq α] (m : List (α × β)) (k : α) (v : β)
    (p : α × β) (hp : p ∈ jset m k v) : p ∈ m ∨ p = (k, v) := by
  induction m with
  | nil => simpa [jset] using hp
  | cons q m ih =>
    by_cases hk : k = q.1
    · subst hk
      rcases List.mem_cons.mp (by simpa [jset] using hp) with h | h
      · right; rw [h]
      · left; exact List.mem_cons_of_mem _ h
    · rw [jset, if_neg hk] at hp
      rcases List.mem_cons.mp hp with h | h
      · left; exact List.mem_cons.mpr (Or.inl h)
      · rcases ih h with h2 | h2
        · left; exact List.mem_cons_of_mem _ h2
        · right; exact h2

theorem keys_jset {α β : Type} [DecidableEq α] (m : List (α × β)) (k : α) (v : β) :
    (jset m k v).map Prod.fst =
      if k ∈ m.map Prod.fst then m.map Prod.fst else m.map Prod.fst ++ [k] := by
  induction m with
  | nil => simp [jset]
  | cons q m ih =>
    by_cases hk : k = q.1
    · subst hk
      simp [jset]
    · rw [jset, if_neg hk]
      by_cases hin : k ∈ m.map Prod.fst
      · simp only [List.map_cons, ih, if_pos hin]
        rw [if_pos (List.mem_cons_of_mem _ hin)]
      · simp only [List.map_cons, ih, if_neg hin]
        rw [if_neg (by
          intro hmem
          rcases List.mem_cons.mp hmem with h | h
          · exact hk h
          · exact hin h)]
        simp

theorem nodup_keys_jset {α β : Type} [DecidableEq α] (m : List (α × β)) (k : α) (v : β)
    (h : (m.map Prod.fst).Nodup) : ((jset m k v).map Prod.fst).Nodup := by
  rw [keys_jset]
  by_cases hin : k ∈ m.map Prod.fst
  · rwa [if_pos hin]
  · rw [if_neg hin]
    rw [List.nodup_append]
    refine ⟨h, List.nodup_singleton k, ?_⟩
    intro a ha hka
    rcases List.mem_singleton.mp hka with rfl
    exact hin ha

theorem jget_isSome_mem_keys {α β : Type} [DecidableEq α] (m : List (α × β)) (k : α)
    (h : (jget m k).isSome) : k ∈ m.map Prod.fst := by
  rcases Option.isSome_iff_exists.mp h with ⟨v, hv⟩
  exact List.mem_map.mpr ⟨(k, v), jget_mem m k v hv, rfl⟩

/-- One bucket insertion: the flattened bucket contents gain exactly the new node. -/
theorem flatten_jset_snoc {α : Type} [DecidableEq α] (bs : List (α × List PositionedNode))
    (k : α) (n : PositionedNode) :
    ((jset bs k ((jget bs k).getD [] ++ [n])).map Prod.snd).flatten.Perm
      (n :: (bs.map Prod.snd).flatten) := by
  induction bs with
  | nil => simp [jset, jget]
  | cons q bs ih =>
    obtain ⟨k0, b0⟩ := q
    by_cases hk : k = k0
    · subst hk
      simp [jget, jset]
    · have hgetne : jget ((k0, b0) :: bs) k = jget bs k := by
        rw [jget, if_neg hk]
      have hsetne : jset ((k0, b0) :: bs) k ((jget ((k0, b0) :: bs) k).getD [] ++ [n])
          = (k0, b0) :: jset bs k ((jget bs k).getD [] ++ [n]) := by
        rw [hgetne, jset, if_neg hk]
      rw [hsetne]
      simp only [List.map_cons, List.flatten_cons]
      exact (ih.append_left b0).trans List.perm_middle

theorem bucketsAdd_flatten_perm (ns : List PositionedNode)
    (bs : List (ℚ × List PositionedNode)) :
    ((bucketsAdd bs ns).map Prod.snd).flatten.Perm ((bs.map Prod.snd).flatten ++ ns) := by
  induction ns generalizing bs with
  | nil => simp [bucketsAdd]
  | cons n ns ih =>
    rw [bucketsAdd]
    refine (ih _).trans ?_
    refine ((flatten_jset_snoc bs (rankOf n) n).append_right ns).trans ?_
    exact (List.perm_middle).symm

theorem rankBuckets_flatten_perm (ns : List PositionedNode) :
    ((rankBuckets ns).map Prod.snd).flatten.Perm ns := by
  have := bucketsAdd_flatten_perm ns []
  simpa [rankBuckets] using this

theorem bucketsAdd_rank_coh (ns : List PositionedNode) (bs : List (ℚ × List PositionedNode))
    (hbs : ∀ q ∈ bs, ∀ n ∈ q.2, rankOf n = q.1) :
    ∀ q ∈ bucketsAdd bs ns, ∀ n ∈ q.2, rankOf n = q.1 := by
  induction ns generalizing bs with
  | nil => exact hbs
  | cons n0 ns ih =>
    rw [bucketsAdd]
    refine ih _ ?_
    intro q hq m hm
    rcases mem_jset _ _ _ q hq with hold | hnew
    · exact hbs q hold m hm
    · subst hnew
      simp only at hm
      rcases List.mem_append.mp hm with hmem | hmem
      · rcases hget : jget bs (rankOf n0) with _ | b
        · rw [hget] at hmem; simp at hmem
        · rw [hget] at hmem
          simp only [Option.getD_some] at hmem
          exact hbs (rankOf n0, b) (jget_mem _ _ _ hget) m hmem
      · simp at hmem
        subst hmem
        rfl

theorem bucketsAdd_nodup_keys (ns : List PositionedNode)
    (bs : List (ℚ × List PositionedNode)) (h : (bs.map Prod.fst).Nodup) :
    ((bucketsAdd bs ns).map Prod.fst).Nodup := by
  induction ns generalizing bs with
  | nil => exact h
  | cons n ns ih =>
    rw [bucketsAdd]
    exact ih _ (nodup_keys_jset _ _ _ h)

theorem rankBuckets_nodup_keys (ns : List PositionedNode) :
    ((rankBuckets ns).map Prod.fst).Nodup :=
  bucketsAdd_nodup_keys ns [] (by simp)

theorem jget_bucketsAdd_mem (ns : List PositionedNode)
    (bs : List (ℚ × List PositionedNode)) (n : PositionedNode)
    (h : n ∈ (jget bs (rankOf n)).getD [] ∨ n ∈ ns) :
    n ∈ (jget (bucketsAdd bs ns) (rankOf n)).getD [] := by
  induction ns generalizing bs with
  | nil =>
    rcases h with h | h
    · exact h
    · simp at h
  | cons m ns ih =>
    rw [bucketsAdd]
    refine ih _ ?_
    rcases h with h | h
    · left
      by_cases hr : rankOf m = rankOf n
      · rw [hr, jget_jset_self]
        simpa using Or.inl h
      · rw [jget_jset_ne _ _ _ _ (fun hc => hr hc.symm)]
        exact h
    · rcases List.mem_cons.mp h with rfl | h
      · left
        rw [jget_jset_self]
        simp
      · right
        exact h

theorem mem_own_bucket (ns : List PositionedNode) (n : PositionedNode) (h : n ∈ ns) :
    n ∈ (jget (rankBuckets ns) (rankOf n)).getD [] :=
  jget_bucketsAdd_mem ns [] n (Or.inr h)

-- ============================================================================
-- sortedBuckets structure lemmas
-- ============================================================================

theorem sortedBuckets_fst (ns : List PositionedNode) :
    (sortedBuckets ns).map Prod.fst = sortRanks ((rankBuckets ns).map Prod.fst) := by
  rw [sortedBuckets, List.map_map]
  rw [show (Prod.fst ∘ fun r => (r, sortByX ((jget (rankBuckets ns) r).getD [])))
      = id from rfl, List.map_id]

theorem sortedBuckets_sorted (ns : List PositionedNode) :
    ((sortedBuckets ns).map Prod.fst).Sorted (· ≤ ·) := by
  rw [sortedBuckets_fst]
  exact sortRanks_sorted _

theorem sortedBuckets_nodup_fst (ns : List PositionedNode) :
    ((sortedBuckets ns).map Prod.fst).Nodup := by
  rw [sortedBuckets_fst]
  exact ((sortRanks_perm _).nodup_iff).mpr (rankBuckets_nodup_keys ns)

theorem mem_sortedBuckets_elim (ns : List PositionedNode)
    (q : ℚ × List PositionedNode) (hq : q ∈ sortedBuckets ns) :
    q.2 = sortByX ((jget (rankBuckets ns) q.1).getD []) := by
  rw [sortedBuckets] at hq
  rcases List.mem_map.mp hq with ⟨r, _, hr⟩
  rw [← hr]

theorem sortedBuckets_rank_coh (ns : List PositionedNode)
    (q : ℚ × List PositionedNode) (hq : q ∈ sortedBuckets ns) :
    ∀ n ∈ q.2, rankOf n = q.1 := by
  intro n hn
  rw [mem_sortedBuckets_elim ns q hq] at hn
  have hn2 := (sortByX_perm _).mem_iff.mp hn
  rcases hget : jget (rankBuckets ns) q.1 with _ | b
  · rw [hget] at hn2; simp at hn2
  · rw [hget] at hn2
    simp only [Option.getD_some] at hn2
    exact bucketsAdd_rank_coh ns [] (by simp) (q.1, b) (jget_mem _ _ _ hget) n hn2

theorem mem_sortedBuckets (ns : List PositionedNode) (n : PositionedNode) (h : n ∈ ns) :
    (rankOf n, sortByX ((jget (rankBuckets ns) (rankOf n)).getD [])) ∈ sortedBuckets ns ∧
      n ∈ sortByX ((jget (rankBuckets ns) (rankOf n)).getD []) := by
  constructor
  · rw [sortedBuckets]
    refine List.mem_map.mpr ⟨rankOf n, ?_, rfl⟩
    refine ((sortRanks_perm _).mem_iff).mpr ?_
    refine jget_isSome_mem_keys _ _ ?_
    have := mem_own_bucket ns n h
    rcases hget : jget (rankBuckets ns) (rankOf n) with _ | b
    · rw [hget] at this; simp at this
    · simp
  · exact ((sortByX_perm _).mem_iff).mpr (mem_own_bucket ns n h)

theorem flatten_map_perm_of_forall (f g : ℚ → List PositionedNode) (l : List ℚ)
    (h : ∀ r ∈ l, (f r).Perm (g r)) :
    ((l.map f).flatten).Perm ((l.map g).flatten) := by
  induction l with
  | nil => simp
  | cons r l ih =>
    simp only [List.map_cons, List.flatten_cons]
    exact (h r (by simp)).append (ih (fun s hs => h s (List.mem_cons_of_mem _ hs)))

theorem keys_map_getD (bs : List (ℚ × List PositionedNode))
    (h : (bs.map Prod.fst).Nodup) :
    (bs.map Prod.fst).map (fun r => (jget bs r).getD []) = bs.map Prod.snd := by
  induction bs with
  | nil => simp
  | cons q bs ih =>
    obtain ⟨k0, b0⟩ := q
    rw [List.map_cons] at h
    rcases List.nodup_cons.mp h with ⟨hq, hbs⟩
    simp only [List.map_cons]
    congr 1
    · simp [jget]
    · have hcong : ∀ r ∈ bs.map Prod.fst,
          (jget ((k0, b0) :: bs) r).getD [] = (jget bs r).getD [] := by
        intro r hr
        rw [jget, if_neg ?_]
        intro hc
        subst hc
        exact hq hr
      rw [List.map_congr_left hcong, ih hbs]

theorem sortedBuckets_flatten_perm (ns : List PositionedNode) :
    ((sortedBuckets ns).map Prod.snd).flatten.Perm ns := by
  rw [sortedBuckets, List.map_map]
  have h1 : (Prod.snd ∘ fun r => (r, sortByX ((jget (rankBuckets ns) r).getD [])))
      = fun r => sortByX ((jget (rankBuckets ns) r).getD []) := rfl
  rw [h1]
  refine List.Perm.trans (flatten_map_perm_of_forall _
    (fun r => (jget (rankBuckets ns) r).getD []) _ (fun r _ => sortByX_perm _)) ?_
  refine List.Perm.trans (((sortRanks_perm _).map _).flatten) ?_
  rw [keys_map_getD _ (rankBuckets_nodup_keys ns)]
  exact rankBuckets_flatten_perm ns

-- ============================================================================
-- Main-loop lemmas: unfolding, stability, and the edge-delay invariant
-- ============================================================================

theorem nodeDelay_eq_root (opts : ResolvedAnimation) (incoming : List (String × List Nat))
    (em : List (Nat × ℚ)) (r : ℚ) (i : Nat) (n : PositionedNode)
    (h : (jget incoming n.id).getD [] = []) :
    nodeDelay opts incoming em r i n = r * opts.stagger + (i : ℚ) * (opts.stagger * 0.5) := by
  rw [nodeDelay]
  simp [h]

theorem nodeDelay_eq_cascade (opts : ResolvedAnimation) (incoming : List (String × List Nat))
    (em : List (Nat × ℚ)) (r : ℚ) (i : Nat) (n : PositionedNode)
    (h : (jget incoming n.id).getD [] ≠ []) :
    nodeDelay opts incoming em r i n =
      (((jget incoming n.id).getD []).foldl
          (fun acc j => max acc ((jget em j).getD 0 + opts.duration)) 0)
        - opts.duration * opts.nodeOverlap + (i : ℚ) * (opts.stagger * 0.5) := by
  rw [nodeDelay]
  simp [h]

theorem jget_jset_cases {α β : Type} [DecidableEq α] (m : List (α × β)) (k : α) (v : β)
    (x : α) (d : β) (h : jget (jset m k v) x = some d) :
    (x = k ∧ d = v) ∨ jget m x = some d := by
  by_cases hx : x = k
  · subst hx
    rw [jget_jset_self] at h
    left
    exact ⟨rfl, (Option.some_inj.mp h).symm⟩
  · right
    rwa [jget_jset_ne _ _ _ _ hx] at h

theorem jget_stepNode_nm (edges : List PositionedEdge) (opts : ResolvedAnimation)
    (incoming : List (String × List Nat)) (r : ℚ) (i : Nat) (n : PositionedNode)
    (s : DelayState) (x : String) :
    jget (stepNode edges opts incoming r i n s).1 x =
      if x = n.id then some (nodeDelay opts incoming s.2 r i n) else jget s.1 x := by
  by_cases hx : x = n.id
  · subst hx
    rw [if_pos rfl, stepNode]
    exact jget_jset_self _ _ _
  · rw [if_neg hx, stepNode]
    exact jget_jset_ne _ _ _ _ hx

theorem em_stable_step (edges : List PositionedEdge) (opts : ResolvedAnimation)
    (incoming : List (String × List Nat)) (r : ℚ) (i : Nat) (n : PositionedNode)
    (s : DelayState) (j : Nat)
    (h : ∀ e, edges.get? j = some e → e.source ≠ n.id) :
    jget (stepNode edges opts incoming r i n s).2 j = jget s.2 j := by
  rw [stepNode]
  refine jget_setOutgoing_miss _ _ _ _ _ _ ?_
  intro i2 e hi2 hj2
  have : i2 = j := by omega
  subst this
  exact h e hi2

theorem processBucket_append (edges : List PositionedEdge) (opts : ResolvedAnimation)
    (incoming : List (String × List Nat)) (r : ℚ) (b1 b2 : List PositionedNode) :
    ∀ (i : Nat) (s : DelayState),
      processBucket edges opts incoming r i (b1 ++ b2) s
        = processBucket edges opts incoming r (i + b1.length) b2
            (processBucket edges opts incoming r i b1 s) := by
  induction b1 with
  | nil =>
    intro i s
    simp [processBucket]
  | cons n b1 ih =>
    intro i s
    rw [List.cons_append, processBucket, processBucket, ih]
    have : i + 1 + b1.length = i + (n :: b1).length := by simp; omega
    rw [this]

theorem processRanks_append (edges : List PositionedEdge) (opts : ResolvedAnimation)
    (incoming : List (String × List Nat)) (B1 B2 : List (ℚ × List PositionedNode)) :
    ∀ (s : DelayState),
      processRanks edges opts incoming (B1 ++ B2) s
        = processRanks edges opts incoming B2 (processRanks edges opts incoming B1 s) := by
  induction B1 with
  | nil =>
    intro s
    simp [processRanks]
  | cons q B1 ih =>
    intro s
    rw [List.cons_append, processRanks, processRanks, ih]

theorem nm_stable_bucket (edges : List PositionedEdge) (opts : ResolvedAnimation)
    (incoming : List (String × List Nat)) (r : ℚ) (b : List PositionedNode) (x : String)
    (hb : ∀ m ∈ b, m.id ≠ x) :
    ∀ (i : Nat) (s : DelayState),
      jget (processBucket edges opts incoming r i b s).1 x = jget s.1 x := by
  induction b with
  | nil =>
    intro i s
    rfl
  | cons n b ih =>
    intro i s
    rw [processBucket, ih (fun m hm => hb m (List.mem_cons_of_mem _ hm)),
      jget_stepNode_nm, if_neg (fun hc => hb n (by simp) hc.symm)]

theorem nm_stable_ranks (edges : List PositionedEdge) (opts : ResolvedAnimation)
    (incoming : List (String × List Nat)) (B : List (ℚ × List PositionedNode)) (x : String)
    (hB : ∀ q ∈ B, ∀ m ∈ q.2, m.id ≠ x) :
    ∀ (s : DelayState),
      jget (processRanks edges opts incoming B s).1 x = jget s.1 x := by
  induction B with
  | nil =>
    intro s
    rfl
  | cons q B ih =>
    intro s
    rw [processRanks, ih (fun p hp => hB p (List.mem_cons_of_mem _ hp)),
      nm_stable_bucket edges opts incoming q.1 q.2 x (hB q (by simp))]

theorem em_stable_bucket (edges : List PositionedEdge) (opts : ResolvedAnimation)
    (incoming : List (String × List Nat)) (r : ℚ) (b : List PositionedNode) (j : Nat)
    (hb : ∀ e, edges.get? j = some e → ∀ m ∈ b, e.source ≠ m.id) :
    ∀ (i : Nat) (s : DelayState),
      jget (processBucket edges opts incoming r i b s).2 j = jget s.2 j := by
  induction b with
  | nil =>
    intro i s
    rfl
  | cons n b ih =>
    intro i s
    rw [processBucket, ih (fun e he m hm => hb e he m (List.mem_cons_of_mem _ hm)),
      em_stable_step edges opts incoming r i n s j (fun e he => hb e he n (by simp))]

theorem em_stable_ranks (edges : List PositionedEdge) (opts : ResolvedAnimation)
    (incoming : List (String × List Nat)) (B : List (ℚ × List PositionedNode)) (j : Nat)
    (hB : ∀ e, edges.get? j = some e → ∀ q ∈ B, ∀ m ∈ q.2, e.source ≠ m.id) :
    ∀ (s : DelayState),
      jget (processRanks edges opts incoming B s).2 j = jget s.2 j := by
  induction B with
  | nil =>
    intro s
    rfl
  | cons q B ih =>
    intro s
    rw [processRanks, ih (fun e he p hp => hB e he p (List.mem_cons_of_mem _ hp)),
      em_stable_bucket edges opts incoming q.1 q.2 j (fun e he => hB e he q (by simp))]

theorem Inv1_mono (edges : List PositionedEdge) (dur : ℚ) (P Q : String → Prop)
    (s : DelayState) (hPQ : ∀ x, Q x → P x) (h : Inv1 edges dur P s) :
    Inv1 edges dur Q s :=
  fun j e hj hQ => h j e hj (hPQ _ hQ)

theorem Inv1_step (edges : List PositionedEdge) (opts : ResolvedAnimation)
    (incoming : List (String × List Nat)) (r : ℚ) (i : Nat) (n : PositionedNode)
    (s : DelayState) (P : String → Prop) (h : Inv1 edges opts.duration P s) :
    Inv1 edges opts.duration (fun x => x = n.id ∨ P x)
      (stepNode edges opts incoming r i n s) := by
  intro j e hj hP
  by_cases hsrc : e.source = n.id
  · refine ⟨nodeDelay opts incoming s.2 r i n, ?_, ?_⟩
    · rw [jget_stepNode_nm, if_pos hsrc]
    · rw [stepNode]
      have := jget_setOutgoing_hit edges 0 n.id
        (nodeDelay opts incoming s.2 r i n + opts.duration) s.2 j e hj hsrc
      simpa using this
  · rcases hP with hP | hP
    · exact absurd hP hsrc
    · rcases h j e hj hP with ⟨dn, hnm, hem⟩
      refine ⟨dn, ?_, ?_⟩
      · rw [jget_stepNode_nm, if_neg hsrc]
        exact hnm
      · rw [em_stable_step edges opts incoming r i n s j
          (fun e2 he2 => by rw [hj] at he2; cases he2; exact hsrc)]
        exact hem

theorem Inv1_bucket (edges : List PositionedEdge) (opts : ResolvedAnimation)
    (incoming : List (String × List Nat)) (r : ℚ) (b : List PositionedNode) :
    ∀ (P : String → Prop) (i : Nat) (s : DelayState), Inv1 edges opts.duration P s →
      Inv1 edges opts.duration (fun x => (∃ m ∈ b, m.id = x) ∨ P x)
        (processBucket edges opts incoming r i b s) := by
  induction b with
  | nil =>
    intro P i s h
    refine Inv1_mono _ _ _ _ _ ?_ h
    intro x hx
    rcases hx with ⟨m, hm, _⟩ | hx
    · simp at hm
    · exact hx
  | cons n b ih =>
    intro P i s h
    rw [processBucket]
    refine Inv1_mono _ _ _ _ _ ?_
      (ih (fun x => x = n.id ∨ P x) (i + 1) _ (Inv1_step edges opts incoming r i n s P h))
    intro x hx
    rcases hx with ⟨m, hm, hmx⟩ | hx
    · rcases List.mem_cons.mp hm with rfl | hm2
      · right; left; exact hmx.symm
      · left; exact ⟨m, hm2, hmx⟩
    · right; right; exact hx

theorem Inv1_ranks (edges : List PositionedEdge) (opts : ResolvedAnimation)
    (incoming : List (String × List Nat)) (B : List (ℚ × List PositionedNode)) :
    ∀ (P : String → Prop) (s : DelayState), Inv1 edges opts.duration P s →
      Inv1 edges opts.duration (fun x => (∃ q ∈ B, ∃ m ∈ q.2, m.id = x) ∨ P x)
        (processRanks edges opts incoming B s) := by
  induction B with
  | nil =>
    intro P s h
    refine Inv1_mono _ _ _ _ _ ?_ h
    intro x hx
    rcases hx with ⟨q, hq, _⟩ | hx
    · simp at hq
    · exact hx
  | cons q B ih =>
    intro P s h
    rw [processRanks]
    refine Inv1_mono _ _ _ _ _ ?_
      (ih (fun x => (∃ m ∈ q.2, m.id = x) ∨ P x) _
        (Inv1_bucket edges opts incoming q.1 q.2 P 0 s h))
    intro x hx
    rcases hx with ⟨p, hp, m, hm, hmx⟩ | hx
    · rcases List.mem_cons.mp hp with rfl | hp2
      · right; left; exact ⟨m, hm, hmx⟩
      · left; exact ⟨p, hp2, m, hm, hmx⟩
    · right; right; exact hx

-- ============================================================================
-- computeDelays unfolding and remaining structure lemmas
-- ============================================================================

theorem computeDelays_nodes (g : PositionedGraph) (opts : ResolvedAnimation) :
    (computeDelays g opts).nodes =
      (processRanks g.edges opts (incomingMap g.edges) (sortedBuckets g.nodes) ([], [])).1 :=
  rfl

theorem computeDelays_edges (g : PositionedGraph) (opts : ResolvedAnimation) :
    (computeDelays g opts).edges =
      (processRanks g.edges opts (incomingMap g.edges) (sortedBuckets g.nodes) ([], [])).2 :=
  rfl

theorem computeDelays_groups (g : PositionedGraph) (opts : ResolvedAnimation) :
    (computeDelays g opts).groups =
      collectGroupDelays g.nodes opts (computeDelays g opts).nodes g.groups [] :=
  rfl

theorem bucketsAdd_keys_sub (ns : List PositionedNode)
    (bs : List (ℚ × List PositionedNode)) :
    ∀ r ∈ (bucketsAdd bs ns).map Prod.fst,
      r ∈ bs.map Prod.fst ∨ ∃ n ∈ ns, rankOf n = r := by
  induction ns generalizing bs with
  | nil =>
    intro r hr
    left
    exact hr
  | cons n0 ns ih =>
    intro r hr
    rw [bucketsAdd] at hr
    rcases ih _ r hr with hkeys | ⟨n, hn, hrn⟩
    · rw [keys_jset] at hkeys
      by_cases hin : rankOf n0 ∈ bs.map Prod.fst
      · rw [if_pos hin] at hkeys
        left
        exact hkeys
      · rw [if_neg hin] at hkeys
        rcases List.mem_append.mp hkeys with h | h
        · left
          exact h
        · right
          exact ⟨n0, by simp, (List.mem_singleton.mp h).symm⟩
    · right
      exact ⟨n, List.mem_cons_of_mem _ hn, hrn⟩

theorem sortedBuckets_keys_rank (ns : List PositionedNode)
    (q : ℚ × List PositionedNode) (hq : q ∈ sortedBuckets ns) :
    ∃ n ∈ ns, rankOf n = q.1 := by
  have hfst : q.1 ∈ (sortedBuckets ns).map Prod.fst := List.mem_map.mpr ⟨q, hq, rfl⟩
  rw [sortedBuckets_fst] at hfst
  have := (sortRanks_perm _).mem_iff.mp hfst
  rcases bucketsAdd_keys_sub ns [] q.1 (by simpa [rankBuckets] using this) with h | h
  · simp at h
  · exact h

/-- Every node of the graph occurs in some sorted bucket entry. -/
theorem node_in_sortedBuckets (ns : List PositionedNode) (n : PositionedNode) (h : n ∈ ns) :
    ∃ q ∈ sortedBuckets ns, n ∈ q.2 := by
  rcases mem_sortedBuckets ns n h with ⟨hq, hn⟩
  exact ⟨_, hq, hn⟩

-- ============================================================================
-- Claim C1: edge delay = source node delay + duration
-- ============================================================================

/-- Core of claim C1: an edge whose source id is present gets delay equal to
the source delay plus the duration. -/
theorem edge_delay_eq (g : PositionedGraph) (opts : ResolvedAnimation)
    (j : Nat) (e : PositionedEdge) (hj : g.edges.get? j = some e)
    (hsrc : ∃ n ∈ g.nodes, n.id = e.source) :
    ∃ dn, jget (computeDelays g opts).nodes e.source = some dn ∧
      jget (computeDelays g opts).edges j = some (dn + opts.duration) := by
  have hinv := Inv1_ranks g.edges opts (incomingMap g.edges) (sortedBuckets g.nodes)
    (fun _ => False) ([], []) (fun _ _ _ hF => hF.elim)
  rcases hsrc with ⟨n0, hn0, hid⟩
  rcases node_in_sortedBuckets g.nodes n0 hn0 with ⟨q, hq, hnq⟩
  have := hinv j e hj (Or.inl ⟨q, hq, n0, hnq, hid⟩)
  rw [computeDelays_nodes, computeDelays_edges]
  exact this

/-- C1: for every positioned layout whose edge endpoints all reference node
ids present in the layout node list, and every resolved animation config,
the schedule gives each edge a delay exactly equal to the delay of the edge
source node plus the duration, for every edge of the layout. -/
theorem claim_C1_edge_delay (g : PositionedGraph) (opts : ResolvedAnimation)
    (h : ∀ e ∈ g.edges, (∃ n ∈ g.nodes, n.id = e.source) ∧ (∃ n ∈ g.nodes, n.id = e.target)) :
    ∀ j e, g.edges.get? j = some e →
      ∃ dn, jget (computeDelays g opts).nodes e.source = some dn ∧
        jget (computeDelays g opts).edges j = some (dn + opts.duration) := by
  intro j e hj
  exact edge_delay_eq g opts j e hj (h e (List.get?_mem hj)).1

/-- Witness for C1 on the concrete chain A → B with the default config. -/
theorem claim_C1_edge_delay_witness :
    ∃ dn, jget (computeDelays graphAB DEFAULTS).nodes "A" = some dn ∧
      jget (computeDelays graphAB DEFAULTS).edges 0 = some (dn + 650) := by
  have := claim_C1_edge_delay graphAB DEFAULTS
    (by decide) 0 { source := "A", target := "B" } rfl
  simpa using this

-- ============================================================================
-- Nonnegativity of delays
-- ============================================================================

theorem nodeDelay_nonneg (opts : ResolvedAnimation) (incoming : List (String × List Nat))
    (em : List (Nat × ℚ)) (r : ℚ) (i : Nat) (n : PositionedNode)
    (hdur : 0 ≤ opts.duration) (hstag : 0 ≤ opts.stagger)
    (hovl0 : 0 ≤ opts.nodeOverlap) (hovl1 : opts.nodeOverlap ≤ 1) (hr : 0 ≤ r)
    (hem : ∀ j d, jget em j = some d → 0 ≤ d) :
    0 ≤ nodeDelay opts incoming em r i n := by
  have hws : 0 ≤ (i : ℚ) * (opts.stagger * 0.5) :=
    mul_nonneg (Nat.cast_nonneg i) (mul_nonneg hstag (by norm_num))
  by_cases hinc : (jget incoming n.id).getD [] = []
  · rw [nodeDelay_eq_root _ _ _ _ _ _ hinc]
    have h1 : 0 ≤ r * opts.stagger := mul_nonneg hr hstag
    linarith
  · rw [nodeDelay_eq_cascade _ _ _ _ _ _ hinc]
    obtain ⟨j0, rest, hcons⟩ : ∃ j0 rest, (jget incoming n.id).getD [] = j0 :: rest := by
      cases hinc2 : (jget incoming n.id).getD [] with
      | nil => exact absurd hinc2 hinc
      | cons a l => exact ⟨a, l, rfl⟩
    have hget0 : 0 ≤ (jget em j0).getD 0 := by
      cases hj : jget em j0 with
      | none => simp
      | some d => simpa using hem j0 d hj
    have hfold : (jget em j0).getD 0 + opts.duration ≤
        ((jget incoming n.id).getD []).foldl
          (fun acc j => max acc ((jget em j).getD 0 + opts.duration)) 0 :=
      foldl_max_ge _ _ 0 j0 (by rw [hcons]; exact List.mem_cons_self _ _)
    have hoverlap : opts.duration * opts.nodeOverlap ≤ opts.duration := by
      calc opts.duration * opts.nodeOverlap ≤ opts.duration * 1 :=
        mul_le_mul_of_nonneg_left hovl1 hdur
        _ = opts.duration := mul_one _
    linarith

theorem NonnegState_step (edges : List PositionedEdge) (opts : ResolvedAnimation)
    (incoming : List (String × List Nat)) (r : ℚ) (i : Nat) (n : PositionedNode)
    (s : DelayState)
    (hdur : 0 ≤ opts.duration) (hstag : 0 ≤ opts.stagger)
    (hovl0 : 0 ≤ opts.nodeOverlap) (hovl1 : opts.nodeOverlap ≤ 1) (hr : 0 ≤ r)
    (hs : NonnegState s) : NonnegState (stepNode edges opts incoming r i n s) := by
  obtain ⟨hnm, hem⟩ := hs
  have hd : 0 ≤ nodeDelay opts incoming s.2 r i n :=
    nodeDelay_nonneg opts incoming s.2 r i n hdur hstag hovl0 hovl1 hr hem
  constructor
  · intro x d hx
    rw [stepNode] at hx
    rcases jget_jset_cases _ _ _ _ _ hx with ⟨_, rfl⟩ | hold
    · exact hd
    · exact hnm x d hold
  · intro j d hj
    rw [stepNode] at hj
    rcases jget_setOutgoing_cases _ _ _ _ _ _ _ hj with rfl | hold
    · linarith
    · exact hem j d hold

theorem NonnegState_bucket (edges : List PositionedEdge) (opts : ResolvedAnimation)
    (incoming : List (String × List Nat)) (r : ℚ) (b : List PositionedNode)
    (hdur : 0 ≤ opts.duration) (hstag : 0 ≤ opts.stagger)
    (hovl0 : 0 ≤ opts.nodeOverlap) (hovl1 : opts.nodeOverlap ≤ 1) (hr : 0 ≤ r) :
    ∀ (i : Nat) (s : DelayState), NonnegState s →
      NonnegState (processBucket edges opts incoming r i b s) := by
  induction b with
  | nil =>
    intro i s hs
    exact hs
  | cons n b ih =>
    intro i s hs
    rw [processBucket]
    exact ih (i + 1) _ (NonnegState_step edges opts incoming r i n s hdur hstag hovl0 hovl1 hr hs)

theorem NonnegState_ranks (edges : List PositionedEdge) (opts : ResolvedAnimation)
    (incoming : List (String × List Nat)) (B : List (ℚ × List PositionedNode))
    (hdur : 0 ≤ opts.duration) (hstag : 0 ≤ opts.stagger)
    (hovl0 : 0 ≤ opts.nodeOverlap) (hovl1 : opts.nodeOverlap ≤ 1)
    (hB : ∀ q ∈ B, 0 ≤ q.1) :
    ∀ (s : DelayState), NonnegState s →
      NonnegState (processRanks edges opts incoming B s) := by
  induction B with
  | nil =>
    intro s hs
    exact hs
  | cons q B ih =>
    intro s hs
    rw [processRanks]
    exact ih (fun p hp => hB p (List.mem_cons_of_mem _ hp)) _
      (NonnegState_bucket edges opts incoming q.1 q.2 hdur hstag hovl0 hovl1
        (hB q (by simp)) 0 s hs)

/-- The node and edge delay maps of computeDelays contain only nonnegative
values, for in-range configs and nonnegative ranks. -/
theorem computeDelays_nonneg (g : PositionedGraph) (opts : ResolvedAnimation)
    (hdur : 0 ≤ opts.duration) (hstag : 0 ≤ opts.stagger)
    (hovl0 : 0 ≤ opts.nodeOverlap) (hovl1 : opts.nodeOverlap ≤ 1)
    (hrk : ∀ n ∈ g.nodes, 0 ≤ rankOf n) :
    (∀ x d, jget (computeDelays g opts).nodes x = some d → 0 ≤ d) ∧
      (∀ j d, jget (computeDelays g opts).edges j = some d → 0 ≤ d) := by
  have hB : ∀ q ∈ sortedBuckets g.nodes, 0 ≤ q.1 := by
    intro q hq
    rcases sortedBuckets_keys_rank g.nodes q hq with ⟨n, hn, hrn⟩
    rw [← hrn]
    exact hrk n hn
  have := NonnegState_ranks g.edges opts (incomingMap g.edges) (sortedBuckets g.nodes)
    hdur hstag hovl0 hovl1 hB ([], [])
    ⟨fun x d h => by simp [jget] at h, fun j d h => by simp [jget] at h⟩
  rw [computeDelays_nodes, computeDelays_edges]
  exact this

-- ============================================================================
-- Group-delay fold bounds
-- ============================================================================

theorem groupMaxDelay_fold_ge (allNodes : List PositionedNode)
    (nd : List (String × ℚ)) (g : PositionedGroup) : ∀ (a : ℚ),
    a ≤ allNodes.foldl (fun acc n =>
      match jget nd n.id with
      | none => acc
      | some d => if nodeInGroup n g then (if acc < d then d else acc) else acc) a := by
  induction allNodes with
  | nil =>
    intro a
    simp
  | cons n ns ih =>
    intro a
    rw [List.foldl_cons]
    refine le_trans ?_ (ih _)
    cases hj : jget nd n.id with
    | none => simp [hj]
    | some d =>
      simp only [hj]
      by_cases hin : nodeInGroup n g
      · rw [if_pos hin]
        by_cases hlt : a < d
        · rw [if_pos hlt]
          exact le_of_lt hlt
        · rw [if_neg hlt]
      · rw [if_neg hin]

theorem groupMaxDelay_nonneg (allNodes : List PositionedNode)
    (nd : List (String × ℚ)) (g : PositionedGroup) :
    0 ≤ groupMaxDelay allNodes nd g := by
  unfold groupMaxDelay
  exact groupMaxDelay_fold_ge allNodes nd g 0

theorem groupMaxDelay_ge (allNodes : List PositionedNode) (nd : List (String × ℚ))
    (g : PositionedGroup) (n : PositionedNode) (d : ℚ)
    (hn : n ∈ allNodes) (hin : nodeInGroup n g) (hd : jget nd n.id = some d) :
    d ≤ groupMaxDelay allNodes nd g := by
  unfold groupMaxDelay
  suffices h : ∀ (a : ℚ), d ≤ allNodes.foldl (fun acc n =>
      match jget nd n.id with
      | none => acc
      | some d => if nodeInGroup n g then (if acc < d then d else acc) else acc) a from h 0
  induction allNodes with
  | nil => simp at hn
  | cons m ns ih =>
    intro a
    rw [List.foldl_cons]
    rcases List.mem_cons.mp hn with rfl | hns
    · refine le_trans ?_ (groupMaxDelay_fold_ge ns nd g _)
      simp only [hd, if_pos hin]
      by_cases hlt : a < d
      · rw [if_pos hlt]
      · rw [if_neg hlt]
        exact le_of_not_lt hlt
    · exact ih hns _

theorem collect_values_nonneg (allNodes : List PositionedNode) (opts : ResolvedAnimation)
    (nd : List (String × ℚ))
    (hoff : 0 ≤ opts.duration * GROUP_REVEAL_PROGRESS + opts.groupDelay) :
    ∀ (forest : List PositionedGroup) (out : List (String × ℚ)),
      (∀ x d, jget out x = some d → 0 ≤ d) →
      ∀ x d, jget (collectGroupDelays allNodes opts nd forest out) x = some d → 0 ≤ d := by
  intro forest out
  induction forest, out using collectGroupDelays.induct allNodes opts nd with
  | case1 out =>
    intro h
    simpa [collectGroupDelays] using h
  | case2 i lab gx gy gw gh ch gs out ih1 ih2 =>
    intro hout
    simp only [collectGroupDelays]
    refine ih2 ?_
    intro x d hx
    rcases jget_jset_cases _ _ _ _ _ hx with ⟨_, rfl⟩ | hold
    · have h0 : 0 ≤ groupMaxDelay allNodes nd (PositionedGroup.mk i lab gx gy gw gh ch) :=
        groupMaxDelay_nonneg _ _ _
      linarith
    · exact ih1 hout x d hold

-- ============================================================================
-- Concrete evaluations
-- ============================================================================

theorem graphAB_nodes_eval :
    (computeDelays graphAB DEFAULTS).nodes = [("A", 0), ("B", 2145/2)] := by
  simp +decide [computeDelays, incomingMap, incomingAdd, sortedBuckets, rankBuckets, bucketsAdd,
    sortRanks, insertRank, sortByX, insertByX, processRanks, processBucket, stepNode,
    nodeDelay, setOutgoing, jget, jset, rankOf, graphAB, nodeA, nodeB, DEFAULTS, max_def,
    collectGroupDelays]
  norm_num

theorem graphAB_edges_eval :
    (computeDelays graphAB DEFAULTS).edges = [(0, 650)] := by
  simp +decide [computeDelays, incomingMap, incomingAdd, sortedBuckets, rankBuckets, bucketsAdd,
    sortRanks, insertRank, sortByX, insertByX, processRanks, processBucket, stepNode,
    nodeDelay, setOutgoing, jget, jset, rankOf, graphAB, nodeA, nodeB, DEFAULTS, max_def,
    collectGroupDelays]

theorem graphAB_negdur_edges_eval :
    (computeDelays graphAB cfgNegDuration).edges = [(0, -100)] := by
  simp +decide [computeDelays, incomingMap, incomingAdd, sortedBuckets, rankBuckets, bucketsAdd,
    sortRanks, insertRank, sortByX, insertByX, processRanks, processBucket, stepNode,
    nodeDelay, setOutgoing, jget, jset, rankOf, graphAB, nodeA, nodeB, DEFAULTS,
    cfgNegDuration, max_def, collectGroupDelays]

-- ============================================================================
-- Claim C5: delays are nonnegative
-- ============================================================================

/-- C5 counterexample: the claim quantifies over every animation config, but
with the out-of-range duration −100 the single edge of the chain A → B is
scheduled at delay −100 < 0. -/
theorem claim_C5_counterexample :
    jget (computeDelays graphAB cfgNegDuration).edges 0 = some (-100) ∧
      ¬ (0 : ℚ) ≤ -100 := by
  constructor
  · rw [graphAB_negdur_edges_eval]
    simp [jget]
  · norm_num

/-- C5 (amended): for every positioned layout whose node ranks are all
nonnegative and every in-range config (duration, stagger, group offset
nonnegative, node overlap between 0 and 1), every node, edge and group delay
in the schedule is nonnegative. -/
theorem claim_C5_delays_nonneg (g : PositionedGraph) (opts : ResolvedAnimation)
    (hdur : 0 ≤ opts.duration) (hstag : 0 ≤ opts.stagger) (hgd : 0 ≤ opts.groupDelay)
    (hovl0 : 0 ≤ opts.nodeOverlap) (hovl1 : opts.nodeOverlap ≤ 1)
    (hrk : ∀ n ∈ g.nodes, 0 ≤ rankOf n) :
    (∀ x d, jget (computeDelays g opts).nodes x = some d → 0 ≤ d) ∧
      (∀ j d, jget (computeDelays g opts).edges j = some d → 0 ≤ d) ∧
      (∀ x d, jget (computeDelays g opts).groups x = some d → 0 ≤ d) := by
  obtain ⟨hn, he⟩ := computeDelays_nonneg g opts hdur hstag hovl0 hovl1 hrk
  refine ⟨hn, he, ?_⟩
  intro x d hx
  rw [computeDelays_groups] at hx
  refine collect_values_nonneg g.nodes opts (computeDelays g opts).nodes ?_ g.groups []
    (fun x2 d2 h2 => by simp [jget] at h2) x d hx
  have h06 : 0 ≤ opts.duration * GROUP_REVEAL_PROGRESS :=
    mul_nonneg hdur (by norm_num [GROUP_REVEAL_PROGRESS])
  linarith

/-- Witness for C5 on the chain A → B with the default config. -/
theorem claim_C5_delays_nonneg_witness :
    jget (computeDelays graphAB DEFAULTS).edges 0 = some 650 ∧ (0 : ℚ) ≤ 650 := by
  have heval : jget (computeDelays graphAB DEFAULTS).edges 0 = some 650 := by
    rw [graphAB_edges_eval]
    simp [jget]
  refine ⟨heval, ?_⟩
  exact (claim_C5_delays_nonneg graphAB DEFAULTS (by norm_num [DEFAULTS])
    (by norm_num [DEFAULTS]) (by norm_num [DEFAULTS]) (by norm_num [DEFAULTS])
    (by norm_num [DEFAULTS]) (by decide)).2.1 0 650 heval

-- ============================================================================
-- Locating a node in the processing order
-- ============================================================================

theorem idxOfId_append (sb1 : List PositionedNode) (n : PositionedNode)
    (sb2 : List PositionedNode) (h : ∀ m ∈ sb1, m.id ≠ n.id) :
    idxOfId (sb1 ++ n :: sb2) n.id = sb1.length := by
  induction sb1 with
  | nil => simp [idxOfId]
  | cons m sb1 ih =>
    rw [List.cons_append, idxOfId, if_neg (h m (by simp)),
      ih (fun m2 hm2 => h m2 (List.mem_cons_of_mem _ hm2))]
    simp

/-- Split the sorted processing order of `computeDelays` around one node n of
a layout with distinct node ids: the buckets before, the same-rank nodes
before and after n, and the buckets after, with all the freshness, rank
coherence, rank ordering and coverage facts the delay proofs need. -/
theorem locate_node (g : PositionedGraph)
    (hnd : (g.nodes.map PositionedNode.id).Nodup)
    (n : PositionedNode) (hn : n ∈ g.nodes) :
    ∃ B1 sb1 sb2 B2,
      sortedBuckets g.nodes = B1 ++ (rankOf n, sb1 ++ n :: sb2) :: B2 ∧
      idxInRank g n = sb1.length ∧
      (∀ m ∈ sb1, m.id ≠ n.id) ∧
      (∀ m ∈ sb2, m.id ≠ n.id) ∧
      (∀ q ∈ B1, ∀ m ∈ q.2, m.id ≠ n.id) ∧
      (∀ q ∈ B2, ∀ m ∈ q.2, m.id ≠ n.id) ∧
      (∀ m ∈ sb1 ++ n :: sb2, rankOf m = rankOf n) ∧
      (∀ q ∈ B2, rankOf n ≤ q.1) ∧
      (∀ q ∈ B1, ∀ m ∈ q.2, rankOf m = q.1) ∧
      (∀ q ∈ B2, ∀ m ∈ q.2, rankOf m = q.1) ∧
      (∀ m ∈ g.nodes, m ∈ (B1.map Prod.snd).flatten ∨ m ∈ sb1 ++ n :: sb2 ∨
        m ∈ (B2.map Prod.snd).flatten) := by
  obtain ⟨hq0, hnsb⟩ := mem_sortedBuckets g.nodes n hn
  set sb := sortByX ((jget (rankBuckets g.nodes) (rankOf n)).getD []) with hsbdef
  obtain ⟨B1, B2, hsplit⟩ := List.append_of_mem hq0
  obtain ⟨sb1, sb2, hsbsplit⟩ := List.append_of_mem hnsb
  have hflat : ((sortedBuckets g.nodes).map Prod.snd).flatten
      = (B1.map Prod.snd).flatten ++ (sb ++ (B2.map Prod.snd).flatten) := by
    rw [hsplit]
    simp
  have hidsflat : (((sortedBuckets g.nodes).map Prod.snd).flatten.map PositionedNode.id).Nodup :=
    (((sortedBuckets_flatten_perm g.nodes).map PositionedNode.id).nodup_iff).mpr hnd
  have hidsparts : ((((B1.map Prod.snd).flatten ++ (sb ++ (B2.map Prod.snd).flatten))).map
      PositionedNode.id).Nodup := by
    rw [← hflat]
    exact hidsflat
  rw [List.map_append, List.nodup_append] at hidsparts
  obtain ⟨hidsB1, hidsrest, hdisj1⟩ := hidsparts
  rw [List.map_append, List.nodup_append] at hidsrest
  obtain ⟨hidssb, hidsB2, hdisj2⟩ := hidsrest
  have hnidsb : n.id ∈ sb.map PositionedNode.id := List.mem_map.mpr ⟨n, hnsb, rfl⟩
  have hidssb2 := hidssb
  rw [hsbsplit, List.map_append, List.map_cons, List.nodup_append] at hidssb2
  obtain ⟨hnd1, hndcons, hdisjsb⟩ := hidssb2
  have hnotin2 : n.id ∉ sb2.map PositionedNode.id := (List.nodup_cons.mp hndcons).1
  have hnotin1 : n.id ∉ sb1.map PositionedNode.id := by
    intro hc
    exact hdisjsb hc (List.mem_cons_self _ _)
  have hfresh1 : ∀ m ∈ sb1, m.id ≠ n.id := by
    intro m hm hc
    exact hnotin1 (by rw [← hc]; exact List.mem_map.mpr ⟨m, hm, rfl⟩)
  have hfresh2 : ∀ m ∈ sb2, m.id ≠ n.id := by
    intro m hm hc
    exact hnotin2 (by rw [← hc]; exact List.mem_map.mpr ⟨m, hm, rfl⟩)
  have hcoh : ∀ m ∈ sb, rankOf m = rankOf n := by
    intro m hm
    exact sortedBuckets_rank_coh g.nodes _ hq0 m hm
  have hB1mem : ∀ q ∈ B1, q ∈ sortedBuckets g.nodes := by
    intro q hq
    rw [hsplit]
    exact List.mem_append.mpr (Or.inl hq)
  have hB2mem : ∀ q ∈ B2, q ∈ sortedBuckets g.nodes := by
    intro q hq
    rw [hsplit]
    exact List.mem_append.mpr (Or.inr (List.mem_cons_of_mem _ hq))
  refine ⟨B1, sb1, sb2, B2, ?_, ?_, hfresh1, hfresh2, ?_, ?_, ?_, ?_, ?_, ?_, ?_⟩
  · rw [← hsbsplit]
    exact hsplit
  · rw [idxInRank, ← hsbdef, hsbsplit]
    exact idxOfId_append sb1 n sb2 hfresh1
  · intro q hq m hm hc
    refine hdisj1 (List.mem_map.mpr
      ⟨m, List.mem_flatten.mpr ⟨q.2, List.mem_map.mpr ⟨q, hq, rfl⟩, hm⟩, rfl⟩) ?_
    rw [List.map_append]
    refine List.mem_append.mpr (Or.inl ?_)
    rw [hc]
    exact hnidsb
  · intro q hq m hm hc
    refine hdisj2 (show m.id ∈ List.map PositionedNode.id sb by rw [hc]; exact hnidsb) ?_
    exact List.mem_map.mpr
      ⟨m, List.mem_flatten.mpr ⟨q.2, List.mem_map.mpr ⟨q, hq, rfl⟩, hm⟩, rfl⟩
  · intro m hm
    rw [← hsbsplit] at hm
    exact hcoh m hm
  · intro q hq
    have hsorted := sortedBuckets_sorted g.nodes
    rw [hsplit, List.map_append, List.Sorted, List.pairwise_append] at hsorted
    have hcons := hsorted.2.1
    rw [List.map_cons, List.pairwise_cons] at hcons
    exact hcons.1 q.1 (List.mem_map.mpr ⟨q, hq, rfl⟩)
  · intro q hq m hm
    exact sortedBuckets_rank_coh g.nodes q (hB1mem q hq) m hm
  · intro q hq m hm
    exact sortedBuckets_rank_coh g.nodes q (hB2mem q hq) m hm
  · intro m hm
    have hmflat : m ∈ ((sortedBuckets g.nodes).map Prod.snd).flatten :=
      (sortedBuckets_flatten_perm g.nodes).symm.subset hm
    rw [hflat] at hmflat
    rcases List.mem_append.mp hmflat with h1 | h1
    · exact Or.inl h1
    · rcases List.mem_append.mp h1 with h2 | h2
      · right
        left
        rw [← hsbsplit]
        exact h2
      · exact Or.inr (Or.inr h2)

-- ============================================================================
-- Node delay value at the processing step
-- ============================================================================

/-- Once the processing order is split around n (with ids of the later
entries fresh), the final node-delay entry of n is exactly the value
computed at its own step. -/
theorem nm_value_of_split (g : PositionedGraph) (opts : ResolvedAnimation)
    (B1 : List (ℚ × List PositionedNode)) (sb1 sb2 : List PositionedNode)
    (B2 : List (ℚ × List PositionedNode)) (n : PositionedNode)
    (hsplit : sortedBuckets g.nodes = B1 ++ (rankOf n, sb1 ++ n :: sb2) :: B2)
    (hfresh2 : ∀ m ∈ sb2, m.id ≠ n.id)
    (hfreshB2 : ∀ q ∈ B2, ∀ m ∈ q.2, m.id ≠ n.id) :
    jget (computeDelays g opts).nodes n.id
      = some (nodeDelay opts (incomingMap g.edges)
          (processBucket g.edges opts (incomingMap g.edges) (rankOf n) 0 sb1
            (processRanks g.edges opts (incomingMap g.edges) B1 ([], []))).2
          (rankOf n) sb1.length n) := by
  rw [computeDelays_nodes, hsplit, processRanks_append, processRanks,
    processBucket_append, processBucket]
  rw [nm_stable_ranks g.edges opts (incomingMap g.edges) B2 n.id hfreshB2,
    nm_stable_bucket g.edges opts (incomingMap g.edges) (rankOf n) sb2 n.id hfresh2,
    jget_stepNode_nm, if_pos rfl, Nat.zero_add]

-- ============================================================================
-- Claim C3: rank order, within-rank order, root delay formula
-- ============================================================================

/-- C3: computeDelays processes ranks in ascending order and the nodes of a
rank in x order (both captured by idxInRank, the index of the node in the
x-sorted bucket of its rank), and gives every node without incoming edges
delay = rank * stagger + indexInRank * (stagger * 0.5).  Stated for layouts
with distinct node ids (the data model keys nodes by id). -/
theorem claim_C3_root_delay (g : PositionedGraph) (opts : ResolvedAnimation)
    (hnd : (g.nodes.map PositionedNode.id).Nodup) :
    ∀ n ∈ g.nodes, (∀ e ∈ g.edges, e.target ≠ n.id) →
      jget (computeDelays g opts).nodes n.id
        = some (rankOf n * opts.stagger + (idxInRank g n : ℚ) * (opts.stagger * 0.5)) := by
  intro n hn hroot
  obtain ⟨B1, sb1, sb2, B2, hsplit, hidx, _, hfresh2, _, hfreshB2, _, _, _, _, _⟩ :=
    locate_node g hnd n hn
  rw [nm_value_of_split g opts B1 sb1 sb2 B2 n hsplit hfresh2 hfreshB2]
  rw [nodeDelay_eq_root]
  · rw [hidx]
  · rw [incoming_getD, targIdxs_eq_nil g.edges 0 n.id hroot]

/-- Witness for C3: with stagger 80, the second root of graphRoots (node R,
placed right of node A) is the second node of the rank-0 bucket. -/
theorem claim_C3_root_delay_witness :
    jget (computeDelays graphRoots cfgStagger).nodes "R"
      = some (rankOf nodeR * cfgStagger.stagger +
          (idxInRank graphRoots nodeR : ℚ) * (cfgStagger.stagger * 0.5)) := by
  exact claim_C3_root_delay graphRoots cfgStagger (by decide) nodeR
    (List.mem_cons_self _ _) (fun e he => by simp [graphRoots] at he)

-- ============================================================================
-- Claim C2: delay of nodes with incoming edges
-- ============================================================================

theorem mem_nodes_of_bucket (ns : List PositionedNode) (q : ℚ × List PositionedNode)
    (m : PositionedNode) (hq : q ∈ sortedBuckets ns) (hm : m ∈ q.2) : m ∈ ns :=
  (sortedBuckets_flatten_perm ns).subset
    (List.mem_flatten.mpr ⟨q.2, List.mem_map.mpr ⟨q, hq, rfl⟩, hm⟩)

theorem id_inj_of_nodup (ns : List PositionedNode)
    (hnd : (ns.map PositionedNode.id).Nodup) :
    ∀ m1 ∈ ns, ∀ m2 ∈ ns, m1.id = m2.id → m1 = m2 := by
  intro m1 h1 m2 h2 h12
  exact List.inj_on_of_nodup_map hnd h1 h2 h12

theorem graphBack_nodes_eval :
    (computeDelays graphBack DEFAULTS).nodes = [("A", 845/2), ("B", 0)] := by
  simp +decide [computeDelays, incomingMap, incomingAdd, sortedBuckets, rankBuckets, bucketsAdd,
    sortRanks, insertRank, sortByX, insertByX, processRanks, processBucket, stepNode,
    nodeDelay, setOutgoing, jget, jset, rankOf, graphBack, nodeA, nodeB, DEFAULTS, max_def,
    collectGroupDelays]
  norm_num

theorem graphBack_edges_eval :
    (computeDelays graphBack DEFAULTS).edges = [(0, 650)] := by
  simp +decide [computeDelays, incomingMap, incomingAdd, sortedBuckets, rankBuckets, bucketsAdd,
    sortRanks, insertRank, sortByX, insertByX, processRanks, processBucket, stepNode,
    nodeDelay, setOutgoing, jget, jset, rankOf, graphBack, nodeA, nodeB, DEFAULTS, max_def,
    collectGroupDelays]

theorem idxInRank_graphBack_nodeA : idxInRank graphBack nodeA = 0 := by
  simp +decide [idxInRank, idxOfId, rankBuckets, bucketsAdd, sortByX, insertByX,
    jget, jset, rankOf, graphBack, nodeA, nodeB]

/-- C2 counterexample: in graphBack the only edge (index 0, B → A) targets
node A, whose schedule delay is 422.5, while the claimed formula over the
returned edge delay 650 yields 1072.5, and the claimed lower bound also
fails; the code uses the edge delays recorded at processing time (0 for the
not-yet-processed back edge), not the delays of the returned schedule. -/
theorem claim_C2_counterexample :
    jget (computeDelays graphBack DEFAULTS).nodes "A" = some (845/2) ∧
      jget (computeDelays graphBack DEFAULTS).edges 0 = some 650 ∧
      graphBack.edges.get? 0 = some { source := "B", target := "A" } ∧
      ¬ ((845/2 : ℚ) = 650 + DEFAULTS.duration - DEFAULTS.duration * DEFAULTS.nodeOverlap
          + (idxInRank graphBack nodeA : ℚ) * (DEFAULTS.stagger * 0.5)) ∧
      ¬ (650 + DEFAULTS.duration * (1 - DEFAULTS.nodeOverlap) ≤ (845/2 : ℚ)) := by
  refine ⟨?_, ?_, rfl, ?_, ?_⟩
  · rw [graphBack_nodes_eval]
    simp [jget]
  · rw [graphBack_edges_eval]
    simp [jget]
  · rw [idxInRank_graphBack_nodeA]
    norm_num [DEFAULTS]
  · norm_num [DEFAULTS]

/-- C2 (amended): for layouts with distinct node ids, all edge endpoints
present, and every edge from a strictly lower to a strictly higher rank
(rank monotonicity, as the spec requires of layered layouts), and in-range
configs, every node with at least one incoming edge has delay equal to
max over incoming edges of (edge delay + duration) − duration * nodeOverlap
+ indexInRank * (stagger * 0.5), stated as: the delay is an upper bound for
each incoming edge term and is attained by one of them; consequently it is
≥ edge delay + duration * (1 − nodeOverlap) for every incoming edge. -/
theorem claim_C2_cascade_delay (g : PositionedGraph) (opts : ResolvedAnimation)
    (hnd : (g.nodes.map PositionedNode.id).Nodup)
    (hend : ∀ e ∈ g.edges, (∃ m ∈ g.nodes, m.id = e.source) ∧ (∃ m ∈ g.nodes, m.id = e.target))
    (hmono : ∀ e ∈ g.edges, ∀ ms ∈ g.nodes, ∀ mt ∈ g.nodes,
      ms.id = e.source → mt.id = e.target → rankOf ms < rankOf mt)
    (hdur : 0 ≤ opts.duration) (hstag : 0 ≤ opts.stagger)
    (hovl0 : 0 ≤ opts.nodeOverlap) (hovl1 : opts.nodeOverlap ≤ 1)
    (hrk : ∀ m ∈ g.nodes, 0 ≤ rankOf m) :
    ∀ n ∈ g.nodes, ∀ j0 e0, g.edges.get? j0 = some e0 → e0.target = n.id →
      ∃ dn, jget (computeDelays g opts).nodes n.id = some dn ∧
        (∀ j e, g.edges.get? j = some e → e.target = n.id →
          ∃ de, jget (computeDelays g opts).edges j = some de ∧
            de + opts.duration - opts.duration * opts.nodeOverlap
              + (idxInRank g n : ℚ) * (opts.stagger * 0.5) ≤ dn ∧
            de + opts.duration * (1 - opts.nodeOverlap) ≤ dn) ∧
        (∃ j e de, g.edges.get? j = some e ∧ e.target = n.id ∧
          jget (computeDelays g opts).edges j = some de ∧
          dn = de + opts.duration - opts.duration * opts.nodeOverlap
            + (idxInRank g n : ℚ) * (opts.stagger * 0.5)) := by
  intro n hn j0 e0 hj0 ht0
  obtain ⟨B1, sb1, sb2, B2, hsplit, hidx, hfresh1, hfresh2, hfreshB1, hfreshB2,
    hcohsb, hrankB2, hcohB1, hcohB2, hcover⟩ := locate_node g hnd n hn
  have hq0mem : (rankOf n, sb1 ++ n :: sb2) ∈ sortedBuckets g.nodes := by
    rw [hsplit]
    exact List.mem_append.mpr (Or.inr (List.mem_cons_self _ _))
  have hinceq : (jget (incomingMap g.edges) n.id).getD [] = targIdxs g.edges 0 n.id :=
    incoming_getD g.edges n.id
  have hj0inc : j0 ∈ (jget (incomingMap g.edges) n.id).getD [] := by
    rw [hinceq]
    exact (mem_targIdxs g.edges 0 n.id j0).mpr ⟨j0, e0, hj0, ht0, by omega⟩
  have hincne : (jget (incomingMap g.edges) n.id).getD [] ≠ [] := by
    intro hc
    rw [hc] at hj0inc
    simp at hj0inc
  have hval := nm_value_of_split g opts B1 sb1 sb2 B2 n hsplit hfresh2 hfreshB2
  rw [nodeDelay_eq_cascade _ _ _ _ _ _ hincne] at hval
  have hnonneg := computeDelays_nonneg g opts hdur hstag hovl0 hovl1 hrk
  have hedge : ∀ j ∈ (jget (incomingMap g.edges) n.id).getD [],
      ∃ e de, g.edges.get? j = some e ∧ e.target = n.id ∧
        jget (computeDelays g opts).edges j = some de ∧
        jget (processBucket g.edges opts (incomingMap g.edges) (rankOf n) 0 sb1
          (processRanks g.edges opts (incomingMap g.edges) B1 ([], []))).2 j = some de ∧
        0 ≤ de := by
    intro j hj
    rw [hinceq] at hj
    obtain ⟨i2, e, hie, hte, hji⟩ := (mem_targIdxs g.edges 0 n.id j).mp hj
    have hje : g.edges.get? j = some e := by
      have : j = i2 := by omega
      rw [this]
      exact hie
    obtain ⟨ms, hms, hmsid⟩ := (hend e (List.get?_mem hje)).1
    have hsrclt : rankOf ms < rankOf n :=
      hmono e (List.get?_mem hje) ms hms n hn hmsid hte.symm
    have hsrcne : ∀ m ∈ g.nodes, rankOf n ≤ rankOf m → e.source ≠ m.id := by
      intro m hm hrm hc
      have : ms = m := id_inj_of_nodup g.nodes hnd ms hms m hm (by rw [hmsid, hc])
      subst this
      exact absurd hrm (not_le.mpr hsrclt)
    obtain ⟨dsrc, hdsrc, hde⟩ := edge_delay_eq g opts j e hje ⟨ms, hms, hmsid⟩
    have hstable : jget (computeDelays g opts).edges j
        = jget (processBucket g.edges opts (incomingMap g.edges) (rankOf n) 0 sb1
            (processRanks g.edges opts (incomingMap g.edges) B1 ([], []))).2 j := by
      rw [computeDelays_edges, hsplit, processRanks_append, processRanks,
        processBucket_append, processBucket]
      rw [em_stable_ranks g.edges opts (incomingMap g.edges) B2 j ?hB2,
        em_stable_bucket g.edges opts (incomingMap g.edges) (rankOf n) sb2 j ?hsb2,
        em_stable_step g.edges opts (incomingMap g.edges) (rankOf n) _ n _ j ?hn]
      case hB2 =>
        intro e2 he2 q hq m hm
        rw [hje] at he2
        cases he2
        exact hsrcne m (mem_nodes_of_bucket g.nodes q m (by
          rw [hsplit]; exact List.mem_append.mpr (Or.inr (List.mem_cons_of_mem _ hq))) hm)
          (le_trans (hrankB2 q hq) (le_of_eq (hcohB2 q hq m hm).symm))
      case hsb2 =>
        intro e2 he2 m hm
        rw [hje] at he2
        cases he2
        exact hsrcne m (mem_nodes_of_bucket g.nodes _ m hq0mem
          (List.mem_append.mpr (Or.inr (List.mem_cons_of_mem _ hm))))
          (le_of_eq (hcohsb m (List.mem_append.mpr (Or.inr (List.mem_cons_of_mem _ hm)))).symm)
      case hn =>
        intro e2 he2
        rw [hje] at he2
        cases he2
        exact hsrcne n hn (le_refl _)
    refine ⟨e, dsrc + opts.duration, hje, hte, hde, ?_, ?_⟩
    · rw [← hstable]
      exact hde
    · have h0 : 0 ≤ dsrc := hnonneg.1 e.source dsrc hdsrc
      linarith
  set em2 := (processBucket g.edges opts (incomingMap g.edges) (rankOf n) 0 sb1
    (processRanks g.edges opts (incomingMap g.edges) B1 ([], []))).2 with hem2def
  set inc := (jget (incomingMap g.edges) n.id).getD [] with hincdef
  have hws : 0 ≤ (sb1.length : ℚ) * (opts.stagger * 0.5) :=
    mul_nonneg (Nat.cast_nonneg _) (mul_nonneg hstag (by norm_num))
  have hub : ∀ j ∈ inc, (jget em2 j).getD 0 + opts.duration ≤
      inc.foldl (fun acc j2 => max acc ((jget em2 j2).getD 0 + opts.duration)) 0 := by
    intro j hj
    simpa using foldl_max_ge (fun j2 => (jget em2 j2).getD 0 + opts.duration) inc 0 j hj
  have hattraw := foldl_max_attained (fun j2 => (jget em2 j2).getD 0 + opts.duration) inc 0
  simp only [] at hattraw
  have hatt : ∃ j ∈ inc,
      inc.foldl (fun acc j2 => max acc ((jget em2 j2).getD 0 + opts.duration)) 0
        = (jget em2 j).getD 0 + opts.duration := by
    rcases hattraw with h0 | h1
    · refine ⟨j0, hj0inc, ?_⟩
      obtain ⟨e2, de, hje2, hte2, hfin2, hmid2, hde0⟩ := hedge j0 hj0inc
      have h2 := hub j0 hj0inc
      rw [h0] at h2 ⊢
      rw [hmid2] at h2 ⊢
      simp only [Option.getD_some] at h2 ⊢
      linarith
    · exact h1
  refine ⟨(inc.foldl (fun acc j2 => max acc ((jget em2 j2).getD 0 + opts.duration)) 0)
    - opts.duration * opts.nodeOverlap + (sb1.length : ℚ) * (opts.stagger * 0.5), ?_, ?_, ?_⟩
  · exact hval
  · intro j e hje hte
    have hjinc : j ∈ inc := by
      rw [hinceq]
      exact (mem_targIdxs g.edges 0 n.id j).mpr ⟨j, e, hje, hte, by omega⟩
    obtain ⟨e2, de, hje2, _, hfinal, hmid, hde0⟩ := hedge j hjinc
    have h2 := hub j hjinc
    rw [hmid] at h2
    simp only [Option.getD_some] at h2
    refine ⟨de, hfinal, ?_, ?_⟩
    · rw [hidx]
      linarith
    · have hoverlap : opts.duration * opts.nodeOverlap ≤ opts.duration := by
        calc opts.duration * opts.nodeOverlap ≤ opts.duration * 1 :=
          mul_le_mul_of_nonneg_left hovl1 hdur
          _ = opts.duration := mul_one _
      linarith
  · obtain ⟨j, hjinc, hMF⟩ := hatt
    obtain ⟨e, de, hje, hte, hfinal, hmid, _⟩ := hedge j hjinc
    refine ⟨j, e, de, hje, hte, hfinal, ?_⟩
    rw [hidx, hMF, hmid]
    simp only [Option.getD_some]

/-- Witness for C2: node B of the chain A → B with one incoming edge under
the default config. -/
theorem claim_C2_cascade_delay_witness :
    ∃ dn, jget (computeDelays graphAB DEFAULTS).nodes nodeB.id = some dn ∧
      (∀ j e, graphAB.edges.get? j = some e → e.target = nodeB.id →
        ∃ de, jget (computeDelays graphAB DEFAULTS).edges j = some de ∧
          de + DEFAULTS.duration - DEFAULTS.duration * DEFAULTS.nodeOverlap
            + (idxInRank graphAB nodeB : ℚ) * (DEFAULTS.stagger * 0.5) ≤ dn ∧
          de + DEFAULTS.duration * (1 - DEFAULTS.nodeOverlap) ≤ dn) ∧
      (∃ j e de, graphAB.edges.get? j = some e ∧ e.target = nodeB.id ∧
        jget (computeDelays graphAB DEFAULTS).edges j = some de ∧
        dn = de + DEFAULTS.duration - DEFAULTS.duration * DEFAULTS.nodeOverlap
          + (idxInRank graphAB nodeB : ℚ) * (DEFAULTS.stagger * 0.5)) :=
  claim_C2_cascade_delay graphAB DEFAULTS (by decide) (by decide) (by decide)
    (by norm_num [DEFAULTS]) (by norm_num [DEFAULTS]) (by norm_num [DEFAULTS])
    (by norm_num [DEFAULTS]) (by decide) nodeB (by decide) 0
    { source := "A", target := "B" } rfl rfl

-- ============================================================================
-- Claim C4: group delays
-- ============================================================================

/-- Characterization of collectGroupDelays under distinct group ids: every
group of the forest gets exactly the floored-max of the delays of the nodes
inside its box, plus duration * 0.6 plus the group offset; other keys are
untouched. -/
theorem collect_characterize (allNodes : List PositionedNode) (opts : ResolvedAnimation)
    (nd : List (String × ℚ)) :
    ∀ (forest : List PositionedGroup) (out : List (String × ℚ)),
      ((groupsIn forest).map PositionedGroup.id).Nodup →
      (∀ grp ∈ groupsIn forest,
        jget (collectGroupDelays allNodes opts nd forest out) grp.id
          = some (groupMaxDelay allNodes nd grp
              + opts.duration * GROUP_REVEAL_PROGRESS + opts.groupDelay)) ∧
      (∀ x, x ∉ (groupsIn forest).map PositionedGroup.id →
        jget (collectGroupDelays allNodes opts nd forest out) x = jget out x) := by
  intro forest out
  induction forest, out using collectGroupDelays.induct allNodes opts nd with
  | case1 out =>
    intro _
    constructor
    · intro grp hgrp
      simp [groupsIn] at hgrp
    · intro x _
      simp [collectGroupDelays]
  | case2 i lab gx gy gw gh ch gs out ih1 ih2 =>
    intro hnd
    have hndparts := hnd
    simp only [groupsIn, List.map_cons, List.map_append, PositionedGroup.id] at hndparts
    rcases List.nodup_cons.mp hndparts with ⟨hinot, hndrest⟩
    rcases List.nodup_append.mp hndrest with ⟨hndch, hndgs, hdisj⟩
    have hinotch : i ∉ (groupsIn ch).map PositionedGroup.id := by
      intro hc
      exact hinot (List.mem_append.mpr (Or.inl hc))
    have hinotgs : i ∉ (groupsIn gs).map PositionedGroup.id := by
      intro hc
      exact hinot (List.mem_append.mpr (Or.inr hc))
    obtain ⟨hch1, hch2⟩ := ih1 hndch
    obtain ⟨hgs1, hgs2⟩ := ih2 hndgs
    simp only [collectGroupDelays]
    constructor
    · intro grp hgrp
      simp only [groupsIn, List.mem_cons, List.mem_append] at hgrp
      rcases hgrp with rfl | hgrp | hgrp
      · simp only [PositionedGroup.id]
        rw [hgs2 i hinotgs, jget_jset_self]
      · have hne : grp.id ≠ i := by
          intro hc
          exact hinotch (by rw [← hc]; exact List.mem_map.mpr ⟨grp, hgrp, rfl⟩)
        have hnogs : grp.id ∉ (groupsIn gs).map PositionedGroup.id := by
          intro hc
          exact hdisj (List.mem_map.mpr ⟨grp, hgrp, rfl⟩) hc
        rw [hgs2 grp.id hnogs, jget_jset_ne _ _ _ _ hne, hch1 grp hgrp]
      · exact hgs1 grp hgrp
    · intro x hx
      simp only [groupsIn, List.map_cons, List.map_append, List.mem_cons,
        List.mem_append, PositionedGroup.id] at hx
      push_neg at hx
      obtain ⟨hxi, hxch, hxgs⟩ := hx
      rw [hgs2 x hxgs, jget_jset_ne _ _ _ _ hxi, hch2 x hxch]

theorem graphGrp_groups_eval :
    (computeDelays graphGrp cfgNegGroup).groups = [("G", -610)] := by
  simp +decide [computeDelays, incomingMap, incomingAdd, sortedBuckets, rankBuckets, bucketsAdd,
    sortRanks, insertRank, sortByX, insertByX, processRanks, processBucket, stepNode,
    nodeDelay, setOutgoing, jget, jset, rankOf, graphGrp, grpG, nodeA, DEFAULTS, cfgNegGroup,
    max_def, collectGroupDelays, groupMaxDelay, nodeInGroup, GROUP_REVEAL_PROGRESS,
    PositionedGroup.id, PositionedGroup.x, PositionedGroup.y, PositionedGroup.width,
    PositionedGroup.height, PositionedGroup.children]
  norm_num

theorem graphGrp_nodes_eval :
    (computeDelays graphGrp cfgNegGroup).nodes = [("A", 0)] := by
  simp +decide [computeDelays, incomingMap, incomingAdd, sortedBuckets, rankBuckets, bucketsAdd,
    sortRanks, insertRank, sortByX, insertByX, processRanks, processBucket, stepNode,
    nodeDelay, setOutgoing, jget, jset, rankOf, graphGrp, grpG, nodeA, DEFAULTS, cfgNegGroup,
    max_def, collectGroupDelays]

/-- C4 counterexample: with the out-of-range group offset −1000 the group G
containing node A (delay 0) gets delay −610 < 0, violating the claimed
invariant that a group delay is at least the maximum delay of its contained
nodes. -/
theorem claim_C4_counterexample :
    jget (computeDelays graphGrp cfgNegGroup).groups "G" = some (-610) ∧
      jget (computeDelays graphGrp cfgNegGroup).nodes "A" = some 0 ∧
      nodeInGroup nodeA grpG ∧
      ¬ ((0 : ℚ) ≤ -610) := by
  refine ⟨?_, ?_, ?_, by norm_num⟩
  · rw [graphGrp_groups_eval]
    simp [jget]
  · rw [graphGrp_nodes_eval]
    simp [jget]
  · refine ⟨?_, ?_, ?_, ?_⟩ <;>
      norm_num [nodeA, grpG, PositionedGroup.x, PositionedGroup.y,
        PositionedGroup.width, PositionedGroup.height]

/-- C4 (amended): for every layout with distinct group ids and every
resolved config, every group delay equals the 0-floored maximum delay of the
nodes whose boxes lie inside the group box, plus duration * 0.6 plus the
group offset; and whenever duration * 0.6 + groupDelay is nonnegative (in
particular for in-range configs), the group delay is at least the delay of
every node contained in the group. -/
theorem claim_C4_group_delay (g : PositionedGraph) (opts : ResolvedAnimation)
    (hgnd : ((groupsIn g.groups).map PositionedGroup.id).Nodup) :
    ∀ grp ∈ groupsIn g.groups,
      ∃ dg, jget (computeDelays g opts).groups grp.id = some dg ∧
        dg = groupMaxDelay g.nodes (computeDelays g opts).nodes grp
          + opts.duration * GROUP_REVEAL_PROGRESS + opts.groupDelay ∧
        (0 ≤ opts.duration * GROUP_REVEAL_PROGRESS + opts.groupDelay →
          ∀ n ∈ g.nodes, nodeInGroup n grp →
            ∀ dn, jget (computeDelays g opts).nodes n.id = some dn → dn ≤ dg) := by
  intro grp hgrp
  have hchar := (collect_characterize g.nodes opts (computeDelays g opts).nodes
    g.groups [] hgnd).1 grp hgrp
  refine ⟨_, by rw [computeDelays_groups]; exact hchar, rfl, ?_⟩
  intro hoff n hn hin dn hdn
  have := groupMaxDelay_ge g.nodes (computeDelays g opts).nodes grp n dn hn hin hdn
  linarith

/-- Witness for C4 on the one-node one-group layout with the default config. -/
theorem claim_C4_group_delay_witness :
    ∃ dg, jget (computeDelays graphGrp DEFAULTS).groups grpG.id = some dg ∧
      dg = groupMaxDelay graphGrp.nodes (computeDelays graphGrp DEFAULTS).nodes grpG
        + DEFAULTS.duration * GROUP_REVEAL_PROGRESS + DEFAULTS.groupDelay ∧
      (0 ≤ DEFAULTS.duration * GROUP_REVEAL_PROGRESS + DEFAULTS.groupDelay →
        ∀ n ∈ graphGrp.nodes, nodeInGroup n grpG →
          ∀ dn, jget (computeDelays graphGrp DEFAULTS).nodes n.id = some dn → dn ≤ dg) :=
  claim_C4_group_delay graphGrp DEFAULTS
    (by simp [graphGrp, grpG, groupsIn, PositionedGroup.id])
    grpG (by simp [graphGrp, grpG, groupsIn])

-- ============================================================================
-- Claims C6, C7, C8
-- ============================================================================

/-- C6: computeDelays is deterministic: two calls with identical layout and
config yield the identical schedule; the embedding is a pure function of its
arguments, with no randomness or clock input. -/
theorem claim_C6_deterministic (g1 g2 : PositionedGraph) (o1 o2 : ResolvedAnimation)
    (hg : g1 = g2) (ho : o1 = o2) : computeDelays g1 o1 = computeDelays g2 o2 := by
  rw [hg, ho]

/-- Witness for C6 at the concrete chain A → B. -/
theorem claim_C6_deterministic_witness :
    computeDelays graphAB DEFAULTS = computeDelays graphAB DEFAULTS :=
  claim_C6_deterministic graphAB graphAB DEFAULTS DEFAULTS rfl rfl

/-- C7: the named curve ease-in-out and the explicit expression
cubic-bezier(0.42, 0, 0.58, 1) translate to the identical four-number
control-point tuple through both code paths of cssEasingToSmil. -/
theorem claim_C7_easing_parity :
    cssEasingToSmil "ease-in-out" = "0.42 0 0.58 1" ∧
      cssEasingToSmil "cubic-bezier(0.42, 0, 0.58, 1)" = "0.42 0 0.58 1" ∧
      cssEasingToSmil "ease-in-out" = cssEasingToSmil "cubic-bezier(0.42, 0, 0.58, 1)" := by
  refine ⟨?_, ?_, ?_⟩ <;> decide

/-- C8 counterexample: option resolution does not clamp: the out-of-range
duration −5 survives resolution unchanged, so the resolved config used by
computeDelays can contain out-of-range values. -/
theorem claim_C8_counterexample :
    (resolveAnimation (AnimateArg.opts optsNegDuration)).map ResolvedAnimation.duration
      = some (-5) ∧ ((-5 : ℚ) < 0) := by
  constructor
  · rfl
  · norm_num

/-- C8 (amended): resolveAnimation merges the provided options over the
defaults without any validation: every provided numeric field passes through
unchanged, out of range or not, so no clamping to the nearest valid value
takes place. -/
theorem claim_C8_resolve_passthrough (o : AnimationOptions) (d ovl : ℚ)
    (hd : o.duration = some d) (hovl : o.nodeOverlap = some ovl) :
    (resolveAnimation (AnimateArg.opts o)).map ResolvedAnimation.duration = some d ∧
      (resolveAnimation (AnimateArg.opts o)).map ResolvedAnimation.nodeOverlap = some ovl := by
  simp [resolveAnimation, hd, hovl]

/-- Witness for C8 at the out-of-range options (duration −5, overlap 2). -/
theorem claim_C8_resolve_passthrough_witness :
    (resolveAnimation (AnimateArg.opts optsNegDuration)).map ResolvedAnimation.duration
      = some (-5) ∧
      (resolveAnimation (AnimateArg.opts optsNegDuration)).map ResolvedAnimation.nodeOverlap
      = some 2 :=
  claim_C8_resolve_passthrough optsNegDuration (-5) 2 rfl rfl

-- ============================================================================
-- Claim C9: every node is scheduled; absent rank means rank 0
-- ============================================================================

theorem nm_isSome_bucket (edges : List PositionedEdge) (opts : ResolvedAnimation)
    (incoming : List (String × List Nat)) (r : ℚ) (b : List PositionedNode) (x : String) :
    ∀ (i : Nat) (s : DelayState),
      (jget (processBucket edges opts incoming r i b s).1 x).isSome
        ↔ (∃ m ∈ b, m.id = x) ∨ (jget s.1 x).isSome := by
  induction b with
  | nil =>
    intro i s
    simp [processBucket]
  | cons n b ih =>
    intro i s
    rw [processBucket, ih]
    constructor
    · rintro (⟨m, hm, hmx⟩ | hs)
      · exact Or.inl ⟨m, List.mem_cons_of_mem _ hm, hmx⟩
      · rw [jget_stepNode_nm] at hs
        by_cases hx : x = n.id
        · exact Or.inl ⟨n, by simp, hx.symm⟩
        · rw [if_neg hx] at hs
          exact Or.inr hs
    · rintro (⟨m, hm, hmx⟩ | hs)
      · rcases List.mem_cons.mp hm with rfl | hm2
        · right
          rw [jget_stepNode_nm, if_pos hmx.symm]
          simp
        · exact Or.inl ⟨m, hm2, hmx⟩
      · right
        rw [jget_stepNode_nm]
        by_cases hx : x = n.id
        · rw [if_pos hx]
          simp
        · rw [if_neg hx]
          exact hs

theorem nm_isSome_ranks (edges : List PositionedEdge) (opts : ResolvedAnimation)
    (incoming : List (String × List Nat)) (B : List (ℚ × List PositionedNode)) (x : String) :
    ∀ (s : DelayState),
      (jget (processRanks edges opts incoming B s).1 x).isSome
        ↔ (∃ q ∈ B, ∃ m ∈ q.2, m.id = x) ∨ (jget s.1 x).isSome := by
  induction B with
  | nil =>
    intro s
    simp [processRanks]
  | cons q B ih =>
    intro s
    rw [processRanks, ih]
    rw [nm_isSome_bucket]
    constructor
    · rintro (⟨p, hp, hm⟩ | ⟨m, hm, hmx⟩ | hs)
      · exact Or.inl ⟨p, List.mem_cons_of_mem _ hp, hm⟩
      · exact Or.inl ⟨q, by simp, m, hm, hmx⟩
      · exact Or.inr hs
    · rintro (⟨p, hp, m, hm, hmx⟩ | hs)
      · rcases List.mem_cons.mp hp with rfl | hp2
        · exact Or.inr (Or.inl ⟨m, hm, hmx⟩)
        · exact Or.inl ⟨p, hp2, m, hm, hmx⟩
      · exact Or.inr (Or.inr hs)

/-- C9: the node-delay map of computeDelays has exactly the node ids of the
layout as keys, and a node whose rank field is absent lands in the rank-0
bucket, exactly as a node of rank 0 (the code reads only rank ?? 0). -/
theorem claim_C9_total_nodes_rank_default (g : PositionedGraph) (opts : ResolvedAnimation) :
    (∀ x, (jget (computeDelays g opts).nodes x).isSome ↔ ∃ n ∈ g.nodes, n.id = x) ∧
      (∀ n ∈ g.nodes, n.rank = none → n ∈ (jget (rankBuckets g.nodes) 0).getD []) := by
  constructor
  · intro x
    rw [computeDelays_nodes, nm_isSome_ranks]
    constructor
    · rintro (⟨q, hq, m, hm, hmx⟩ | hs)
      · exact ⟨m, mem_nodes_of_bucket g.nodes q m hq hm, hmx⟩
      · simp [jget] at hs
    · rintro ⟨n, hn, hnx⟩
      rcases node_in_sortedBuckets g.nodes n hn with ⟨q, hq, hnq⟩
      exact Or.inl ⟨q, hq, n, hnq, hnx⟩
  · intro n hn hrnone
    have h0 : rankOf n = 0 := by simp [rankOf, hrnone]
    have hb := mem_own_bucket g.nodes n hn
    rwa [h0] at hb

/-- Witness for C9 on a layout whose node C has no rank. -/
theorem claim_C9_total_nodes_rank_default_witness :
    (jget (computeDelays graphNoRank DEFAULTS).nodes "C").isSome ∧
      nodeC ∈ (jget (rankBuckets graphNoRank.nodes) 0).getD [] := by
  have h := claim_C9_total_nodes_rank_default graphNoRank DEFAULTS
  exact ⟨(h.1 "C").mpr ⟨nodeC, by decide, rfl⟩, h.2 nodeC (by decide) rfl⟩

-- ============================================================================
-- Claim C10: escapeXml
-- ============================================================================

theorem replaceChar_append (pat : Char) (rep : List Char) (a b : List Char) :
    replaceChar pat rep (a ++ b) = replaceChar pat rep a ++ replaceChar pat rep b := by
  simp [replaceChar]

theorem escapeXml_single (c : Char) :
    replaceChar (Char.ofNat 39) "&#39;".data (replaceChar '"' "&quot;".data
      (replaceChar '>' "&gt;".data (replaceChar '<' "&lt;".data
        (replaceChar '&' "&amp;".data [c])))) = xmlEntity c := by
  by_cases h1 : c = '&'
  · subst h1
    decide
  by_cases h2 : c = '<'
  · subst h2
    decide
  by_cases h3 : c = '>'
  · subst h3
    decide
  by_cases h4 : c = '"'
  · subst h4
    decide
  by_cases h5 : c = Char.ofNat 39
  · subst h5
    decide
  simp [replaceChar, xmlEntity, h1, h2, h3, h4, h5]

theorem escapeXml_flatMap (l : List Char) :
    replaceChar (Char.ofNat 39) "&#39;".data (replaceChar '"' "&quot;".data
      (replaceChar '>' "&gt;".data (replaceChar '<' "&lt;".data
        (replaceChar '&' "&amp;".data l)))) = l.flatMap xmlEntity := by
  induction l with
  | nil => rfl
  | cons c l ih =>
    rw [show c :: l = [c] ++ l from rfl]
    rw [replaceChar_append, replaceChar_append, replaceChar_append, replaceChar_append,
      replaceChar_append, escapeXml_single c, ih]
    simp

theorem escapeXml_data (s : String) : (escapeXml s).data = s.data.flatMap xmlEntity := by
  rw [escapeXml]
  exact escapeXml_flatMap s.data

theorem xmlEntity_no_specials (c : Char) :
    ∀ c2 ∈ xmlEntity c, c2 ≠ '<' ∧ c2 ≠ '>' ∧ c2 ≠ '"' ∧ c2 ≠ Char.ofNat 39 := by
  by_cases h1 : c = '&'
  · subst h1
    decide
  by_cases h2 : c = '<'
  · subst h2
    decide
  by_cases h3 : c = '>'
  · subst h3
    decide
  by_cases h4 : c = '"'
  · subst h4
    decide
  by_cases h5 : c = Char.ofNat 39
  · subst h5
    decide
  intro c2 hc2
  rw [xmlEntity, if_neg h1, if_neg h2, if_neg h3, if_neg h4, if_neg h5] at hc2
  rcases List.mem_singleton.mp hc2 with rfl
  exact ⟨h2, h3, h4, h5⟩

/-- C10: escapeXml replaces every ampersand, angle bracket, double quote and
apostrophe by its XML entity (the five sequential replaces equal the single
per-character entity substitution), and its output therefore contains none
of the four markup-significant characters, so label text passed through it
cannot inject raw markup. -/
theorem claim_C10_escapeXml_safe (s : String) :
    (escapeXml s).data = s.data.flatMap xmlEntity ∧
      ∀ c ∈ (escapeXml s).data, c ≠ '<' ∧ c ≠ '>' ∧ c ≠ '"' ∧ c ≠ Char.ofNat 39 := by
  refine ⟨escapeXml_data s, ?_⟩
  intro c hc
  rw [escapeXml_data] at hc
  rcases List.mem_flatMap.mp hc with ⟨c0, _, hc0⟩
  exact xmlEntity_no_specials c0 c hc0

/-- Witness for C10 on a concrete markup-bearing label. -/
theorem claim_C10_escapeXml_safe_witness :
    (escapeXml "<hi>").data = "<hi>".data.flatMap xmlEntity ∧
      ∀ c ∈ (escapeXml "<hi>").data, c ≠ '<' ∧ c ≠ '>' ∧ c ≠ '"' ∧ c ≠ Char.ofNat 39 :=
  claim_C10_escapeXml_safe "<hi>"

end BeautifulMermaid
